import Mathlib

/-!
Shallow embedding of the `datasaur-searchable` module (src/index.js): a
primary-key lookup/insert/delete layer over a row store, built around a
lazily derived primary key (PK), a cached ordering permutation (PX), and a
multi-column binary search. State mutation (`this.PK`, `this.PX`, the row
store contents) is modelled by explicit state passing; `throw` is modelled
by `Except`, with the state at the moment of the throw returned alongside.
The external mutation delegate (`publish('add-row'| 'del-row')`) is
modelled by a boolean `handled` parameter: when a delegate handles the
request the row store is appended to / spliced at the given position.
-/

namespace Saur

/-- Kind tag of a scalar value. -/
inductive Kind where
  | undef
  | int
  | str
deriving DecidableEq, Repr

/-- Scalar cell value: a JS number (modelled as an integer), a JS string, or
`undefined` (absent property). -/
inductive Val where
  | undef : Val
  | int : Int → Val
  | str : String → Val
deriving DecidableEq, Repr

/-- Kind of a value. -/
def Val.kind : Val → Kind
  | .undef => .undef
  | .int _ => .int
  | .str _ => .str

/-- JS `p < q` on scalars: numeric comparison between numbers, lexicographic
comparison between strings; false when either side is `undefined` or the
kinds differ (in JS a number/string comparison coerces the string with
ToNumber; for the non-numeric strings modelled here that comparison is a NaN
comparison, hence false). -/
def Val.lt : Val → Val → Bool
  | .int a, .int b => decide (a < b)
  | .str a, .str b => decide (a < b)
  | _, _ => false

/-- JS `p > q`: ECMAScript evaluates it as the relational comparison with
the operands swapped. -/
def Val.gt (p q : Val) : Bool := Val.lt q p

/-- JS `p >= q`: the negation of `p < q` when the operands are comparable,
false when the comparison is undefined (NaN / `undefined` operands). -/
def Val.ge : Val → Val → Bool
  | .int a, .int b => !decide (a < b)
  | .str a, .str b => !decide (a < b)
  | _, _ => false

/-- JS `String(value)`, as used for the object property keys of the
histogram built by `derivePK`. -/
def Val.keyString : Val → String
  | .undef => "undefined"
  | .int n => toString n
  | .str s => s

/-- A row: a mapping from column name to value, as an association list in
property-creation order (a JS object). -/
abbrev Row := List (String × Val)

/-- JS `dataRow[key]`: the value of a property, `undefined` when absent. -/
def rowGet (r : Row) (k : String) : Val :=
  match r.find? (fun p => p.1 == k) with
  | some p => p.2
  | none => (.undef)

/-- JS `key in obj`. -/
def rowHas (r : Row) (k : String) : Bool :=
  (r.find? (fun p => p.1 == k)).isSome

/-- JS `Object.keys(obj)`: own property names in creation order. -/
def rowKeys (r : Row) : List String := r.map Prod.fst

/-- Stable insertion of an element into a list: walk past every element the
comparator places strictly before it. -/
def jsInsert (le : α → α → Bool) (x : α) : List α → List α
  | [] => [x]
  | y :: ys => if le x y then x :: y :: ys else y :: jsInsert le x ys

/-- Model of JS `Array.prototype.sort(comparator)` as a stable comparison
sort; `le a b` stands for `comparator(a, b) <= 0`. (For a consistent
comparator any ES2019+ engine produces exactly the stable sorted order this
computes; for an inconsistent comparator the engine order is unspecified and
this fixes one concrete choice.) -/
def jsSort (le : α → α → Bool) : List α → List α
  | [] => []
  | x :: xs => jsInsert le x (jsSort le xs)

/-- Errors raised by the module: the four `throw new Error(...)` sites of
`find`/`derivePK`, the duplicate-row throw of `insertRow`, and the TypeError
`deleteRow` raises when dereferencing an absent index. -/
inductive Err where
  | cannotDerivePK
  | missingKeyColumn (k : String)
  | multiColumnScalar
  | notFullyQualified
  | rowExists
  | typeError
deriving DecidableEq, Repr

/-- Search argument: an object, or (for single-column keys) a primitive. -/
inductive Sarg where
  | obj : Row → Sarg
  | scalar : Val → Sarg
deriving DecidableEq, Repr

/-- Per-call options recognized by the operations. -/
structure Options where
  presorted : Bool := false
  reindex : Bool := false
deriving DecidableEq, Repr

/-- Instance state: the row store reached through `getRow`/`getRowCount`,
whether a local materialized `this.data` collection is available (when it
is, it is the same row collection as the store), and the cached PK and PX
(`none` models both an absent and an `undefined` field). -/
structure DS where
  rows : List Row
  localData : Bool
  PK : Option (List String)
  PX : Option (List Nat)
deriving DecidableEq, Repr

/-- `this.getRowCount()`. -/
def DS.getRowCount (s : DS) : Int := s.rows.length

/-- `this.getRow(position)` for a store position; out-of-range access (never
reached on the verified paths) yields the empty row. -/
def DS.rowAt (s : DS) (p : Nat) : Row := s.rows.getD p []

/-- `this.getRow(i)` over a signed position. -/
def DS.getRowI (s : DS) (i : Int) : Row :=
  if 0 ≤ i then s.rows.getD i.toNat [] else []

/-- `getIndexedRow`: dereference the ordering permutation, then read the
row (`this.getRow(this.PX[i])`). -/
def DS.getIndexedRow (s : DS) (px : List Nat) (i : Int) : Row :=
  if 0 ≤ i then
    match px.get? i.toNat with
    | some p => s.rowAt p
    | none => []
  else []

/-- The active row accessor of `find`: index-indirected when PX is active,
else direct. -/
def DS.accessor (s : DS) : Int → Row :=
  match s.PX with
  | some px => s.getIndexedRow px
  | none => s.getRowI

/-- Per-column three-way comparison `p < q ? -1 : p > q ? 1 : 0`. -/
def cmpVal (p q : Val) : Int :=
  if Val.lt p q then -1 else if Val.gt p q then 1 else 0

/-- The comparator body over two rows: the first PK column whose values
differ decides; all equal (or no PK column) gives 0. -/
def cmpRows (pk : List String) (a b : Row) : Int :=
  match pk with
  | [] => 0
  | k :: ks =>
    let c := cmpVal (rowGet a k) (rowGet b k)
    if c = 0 then cmpRows ks a b else c

/-- `comparator` of the source, acting on two store positions. -/
def comparator (s : DS) (pk : List String) (a b : Nat) : Int :=
  cmpRows pk (s.rowAt a) (s.rowAt b)

/-- The full rebuild of `derivePX`: the identity permutation of store
positions, sorted by the PK comparator. -/
def rebuildPX (s : DS) (pk : List String) : List Nat :=
  jsSort (fun a b => decide (comparator s pk a b ≤ 0)) (List.range s.rows.length)

/-- `derivePX`: reuse a non-empty cached index, otherwise rebuild. (The
source reads the PK from `this.PK`, which `find` has just assigned; it is
passed here explicitly.) -/
def derivePX (s : DS) (pk : List String) : List Nat :=
  match s.PX with
  | some px => if px.length ≠ 0 then px else rebuildPX s pk
  | none => rebuildPX s pk

/-- Selectivity score of a column: the size of the string-keyed histogram of
its values across `this.data` when a local row collection is available
(JS object property keys, so two values hit the same bucket exactly when
their string images coincide), else 0. -/
def scoreOf (s : DS) (k : String) : Int :=
  if s.localData then ((s.rows.map (fun r => Val.keyString (rowGet r k))).dedup.length : Int)
  else 0

/-- The derivation branch of `derivePK`: the object argument's own keys
sorted descending by selectivity score with a stable sort (ties keep
encounter order); a scalar argument cannot supply candidate columns. -/
def derivePKFrom (s : DS) (sarg : Sarg) : Except Err (List String) :=
  match sarg with
  | .scalar _ => .error .cannotDerivePK
  | .obj r =>
    .ok ((jsSort (fun a b => decide (b.2 - a.2 ≤ 0))
      ((rowKeys r).map (fun k => (k, scoreOf s k)))).map Prod.fst)

/-- `derivePK`: return the configured/cached PK when non-empty, otherwise
derive one from the search argument. -/
def derivePK (s : DS) (sarg : Sarg) : Except Err (List String) :=
  match s.PK with
  | some pk => if pk.length ≠ 0 then .ok pk else derivePKFrom s sarg
  | none => derivePKFrom s sarg

/-- Spec-side selectivity score, following the specification's words rather
than the source: "the count of distinct values the column takes across
locally materialized rows, or 0 for every column when no local row
collection is available". Unlike `scoreOf`, values are counted as values,
not as their JS string images. -/
def specSelectivityScore (s : DS) (k : String) : Int :=
  if s.localData then ((s.rows.map (fun r => rowGet r k)).dedup.length : Int)
  else 0

/-- Spec-side derived key, following the specification's words: the
argument's own keys, stably sorted descending by `specSelectivityScore`
(ties keep encounter order). To be compared with `derivePKFrom`. -/
def specDerivePKOrder (s : DS) (r : Row) : List String :=
  (jsSort (fun a b => decide (b.2 - a.2 ≤ 0))
    ((rowKeys r).map (fun k => (k, specSelectivityScore s k)))).map Prod.fst

/-- Result of `find`: the index-space position, and the row when found. -/
structure FindResult where
  PX_index : Int
  dataRow : Option Row := none
deriving DecidableEq, Repr

/-- Midpoint bounds for `Math.floor((min + max) / 2)`. -/
theorem mid_bounds (mn mx : Int) (h : mn ≤ mx) :
    mn ≤ (mn + mx).fdiv 2 ∧ (mn + mx).fdiv 2 ≤ mx := by
  rw [Int.fdiv_eq_ediv _ (by norm_num)]
  omega

/-! The three binary-search loops of the source are `while (min <= max)`
loops whose range shrinks on every iteration; they are embedded as
structural recursion on a fuel argument initialized to the initial range
size `(max + 1 - min).toNat`, which over-approximates the iteration count,
so the zero-fuel fallback is unreachable and the embedding computes by
plain reduction. -/

/-- Loop body of `binSearch` (see `binSearch`). -/
def binSearchLoop (g : Int → Row) (key : String) (value : Val) :
    Nat → Int → Int → FindResult
  | 0, mn, _ => { PX_index := mn }
  | fuel + 1, mn, mx =>
    if mn ≤ mx then
      let mid := (mn + mx).fdiv 2
      let dataRow := g mid
      let field := rowGet dataRow key
      if Val.gt field value then binSearchLoop g key value fuel mn (mid - 1)
      else if Val.lt field value then
        binSearchLoop g key value fuel (mid + 1) mx
      else { PX_index := mid, dataRow := some dataRow }
    else { PX_index := mn }

/-- The exact/insertion-point binary search of the source (`binSearch`):
compare the midpoint's column value against the target; equal returns the
position and the row, an exhausted range returns the insertion point. -/
def binSearch (g : Int → Row) (key : String) (value : Val) (mn mx : Int) :
    FindResult :=
  binSearchLoop g key value (mx + 1 - mn).toNat mn mx

/-- Loop body of `binSearchMin` (see `binSearchMin`). -/
def binSearchMinLoop (g : Int → Row) (key : String) (value : Val) :
    Nat → Int → Int → Int
  | 0, mn, _ => mn
  | fuel + 1, mn, mx =>
    if mn ≤ mx then
      let mid := (mn + mx).fdiv 2
      if Val.ge (rowGet (g mid) key) value then
        binSearchMinLoop g key value fuel mn (mid - 1)
      else binSearchMinLoop g key value fuel (mid + 1) mx
    else mn

/-- Lower-bound binary search of the source (`binSearchMin`): first position
in range whose column value is `>=` the target. -/
def binSearchMin (g : Int → Row) (key : String) (value : Val) (mn mx : Int) :
    Int :=
  binSearchMinLoop g key value (mx + 1 - mn).toNat mn mx

/-- Loop body of `binSearchMax` (see `binSearchMax`). -/
def binSearchMaxLoop (g : Int → Row) (key : String) (value : Val) :
    Nat → Int → Int → Int
  | 0, mn, _ => mn
  | fuel + 1, mn, mx =>
    if mn ≤ mx then
      let mid := (mn + mx).fdiv 2
      if Val.gt (rowGet (g mid) key) value then
        binSearchMaxLoop g key value fuel mn (mid - 1)
      else binSearchMaxLoop g key value fuel (mid + 1) mx
    else mn

/-- Upper-bound binary search of the source (`binSearchMax`): first position
in range whose column value is `>` the target. -/
def binSearchMax (g : Int → Row) (key : String) (value : Val) (mn mx : Int) :
    Int :=
  binSearchMaxLoop g key value (mx + 1 - mn).toNat mn mx

/-- Normalization of an object search argument into the PK-aligned value
tuple, raising on the first missing key column (JS `PK.map` with a throw
inside the callback). -/
def mapSargVals (r : Row) : List String → Except Err (List Val)
  | [] => .ok []
  | k :: ks =>
    if rowHas r k then
      match mapSargVals r ks with
      | .ok vs => .ok (rowGet r k :: vs)
      | .error e => .error e
    else .error (.missingKeyColumn k)

/-- Normalization of the search argument: an object is mapped over the PK
columns; a scalar is wrapped only for a single-column PK. -/
def normalizeSarg (pk : List String) (sarg : Sarg) : Except Err (List Val) :=
  match sarg with
  | .obj r => mapSargVals r pk
  | .scalar v => if pk.length = 1 then .ok [v] else .error .multiColumnScalar

/-- One narrowing pass of `find` for a non-final PK column: the lower bound,
then the upper bound (computed over the already-raised lower bound) minus
one. -/
def narrowStep (g : Int → Row) (mm : Int × Int) (kv : String × Val) :
    Int × Int :=
  let mn := binSearchMin g kv.1 kv.2 mm.1 mm.2
  (mn, binSearchMax g kv.1 kv.2 mn mm.2 - 1)

/-- The search loop of `find`: narrow on every PK column except the last,
then run the exact/insertion-point search on the final column. For the
degenerate empty PK the source reads `PK[-1]` and `sarg[-1]`, i.e. property
"undefined" against the value `undefined`. -/
def searchPhase (g : Int → Row) (pk : List String) (vals : List Val)
    (mn mx : Int) : FindResult :=
  let mm := (pk.dropLast.zip vals.dropLast).foldl (narrowStep g) (mn, mx)
  binSearch g (pk.getLastD "undefined") (vals.getLastD .undef) mm.1 mm.2

/-- `find`: resolve the PK (cached into state), resolve PX per the options
(cached into state), normalize the search argument, then run the search
phase with the active accessor. On a throw the returned state carries the
mutations made before the throw, as in JS. -/
def find (s : DS) (sarg : Sarg) (o : Options) : Except Err FindResult × DS :=
  match derivePK s sarg with
  | .error e => (.error e, s)
  | .ok pk =>
    let s1 : DS := { s with PK := some pk }
    let s2 : DS :=
      if o.presorted then { s1 with PX := none }
      else
        let sr : DS := if o.reindex then { s1 with PX := none } else s1
        { sr with PX := some (derivePX sr pk) }
    match normalizeSarg pk sarg with
    | .error e => (.error e, s2)
    | .ok vals =>
      if vals.length ≠ pk.length then (.error .notFullyQualified, s2)
      else (.ok (searchPhase s2.accessor pk vals 0 (s2.getRowCount - 1)), s2)

/-- `findRow` with arguments: the matched row, or `undefined` (`none`). -/
def findRow (s : DS) (sarg : Sarg) (o : Options) :
    Except Err (Option Row) × DS :=
  match find s sarg o with
  | (.error e, s1) => (.error e, s1)
  | (.ok res, s1) => (.ok res.dataRow, s1)

/-- `findRow()` called without arguments: deletes the cached index. -/
def findRowClear (s : DS) : DS := { s with PX := none }

/-- `findRowIndex`: the position from `find`, dereferenced through the index
when one is active; a dereference outside the index yields JS `undefined`,
here `none`. -/
def findRowIndex (s : DS) (sarg : Sarg) (o : Options) :
    Except Err (Option Int) × DS :=
  match find s sarg o with
  | (.error e, s1) => (.error e, s1)
  | (.ok res, s1) =>
    match s1.PX with
    | some px => (.ok ((px.get? res.PX_index.toNat).map (fun p => (p : Int))), s1)
    | none => (.ok (some res.PX_index), s1)

/-- JS `array.splice(i, 0, x)`: insert at position `i` (clamped to the
length, as in JS). -/
def spliceIn (l : List α) (i : Nat) (x : α) : List α :=
  l.take i ++ x :: l.drop i

/-- JS `array.splice(i, 1)`: remove the element at position `i` (no effect
past the end, as in JS). -/
def spliceOut (l : List α) (i : Nat) : List α := l.eraseIdx i

/-- Outcome of a mutation operation: the returned value or error, the final
state, and whether the request was published to the delegate at all. -/
structure MutOutcome (α : Type) where
  result : Except Err α
  state : DS
  published : Bool

/-- `insertRow`: find with the row itself as search argument, throw when a
row was found, publish the add-row request (when a delegate handles it the
store appends the row), then splice the new store position
(`getRowCount() - 1`) into the index when one is active. -/
def insertRow (s : DS) (dataRow : Row) (o : Options) (handled : Bool) :
    MutOutcome Bool :=
  match find s (.obj dataRow) o with
  | (.error e, s1) => ⟨.error e, s1, false⟩
  | (.ok res, s1) =>
    if res.dataRow.isSome then ⟨.error .rowExists, s1, false⟩
    else
      let s2 : DS := if handled then { s1 with rows := s1.rows ++ [dataRow] } else s1
      match handled, s2.PX with
      | true, some px =>
        ⟨.ok true,
          { s2 with PX := some (spliceIn px res.PX_index.toNat (s2.rows.length - 1)) },
          true⟩
      | true, none => ⟨.ok true, s2, true⟩
      | false, _ => ⟨.ok false, s2, true⟩

/-- Result of `deleteRow`: the deleted row, `undefined` when not found, or
`false` when found but no delegate handled the deletion. -/
inductive DeleteResult where
  | deleted (r : Row)
  | notFound
  | notHandled
deriving DecidableEq, Repr

/-- `deleteRow`: find, then publish the del-row request with
`this.PX[found]` — evaluating that argument is a TypeError when no index is
active — and, when a delegate handled it, remove the row at that store
position and splice the entry out of the index without renumbering the
remaining entries. -/
def deleteRow (s : DS) (sarg : Sarg) (o : Options) (handled : Bool) :
    MutOutcome DeleteResult :=
  match find s sarg o with
  | (.error e, s1) => ⟨.error e, s1, false⟩
  | (.ok res, s1) =>
    match res.dataRow with
    | none => ⟨.ok .notFound, s1, false⟩
    | some dr =>
      match s1.PX with
      | none => ⟨.error .typeError, s1, false⟩
      | some px =>
        let pos := px.getD res.PX_index.toNat 0
        if handled then
          ⟨.ok (.deleted dr),
            { s1 with rows := s1.rows.eraseIdx pos,
                      PX := some (spliceOut px res.PX_index.toNat) },
            true⟩
        else ⟨.ok .notHandled, s1, true⟩

/-! Comparison kit for `Val`: `Val.lt` is a strict partial order that is
linear within a kind; the lemmas below record exactly the trichotomy,
transitivity and `>=`-agreement facts the binary-search proofs need. -/

theorem Val.ltb_irrefl (a : Val) : Val.lt a a = false := by
  cases a <;> simp [Val.lt]

theorem Val.ltb_asymm {a b : Val} (h : Val.lt a b = true) :
    Val.lt b a = false := by
  cases a <;> cases b <;>
      simp only [Val.lt, Bool.false_eq_true, decide_eq_true_eq,
        decide_eq_false_iff_not, not_lt] at h ⊢
  all_goals first
    | exact h.elim
    | omega
    | exact le_of_lt h

theorem Val.ltb_trans {a b c : Val} (h1 : Val.lt a b = true)
    (h2 : Val.lt b c = true) : Val.lt a c = true := by
  cases a <;> cases b <;> cases c <;>
      simp only [Val.lt, Bool.false_eq_true, decide_eq_true_eq] at h1 h2 ⊢
  all_goals first
    | exact h1.elim
    | exact h2.elim
    | omega
    | exact lt_trans h1 h2

theorem Val.eq_of_not_ltb {a b : Val} (hk : a.kind = b.kind)
    (h1 : Val.lt a b = false) (h2 : Val.lt b a = false) : a = b := by
  cases a <;> cases b <;>
      simp only [Val.kind, Val.lt, Bool.false_eq_true, Val.int.injEq,
        Val.str.injEq, decide_eq_false_iff_not, not_lt] at hk h1 h2 ⊢
  all_goals first
    | rfl
    | omega
    | exact le_antisymm h2 h1
    | exact absurd hk (by decide)

theorem Val.geb_eq_not_ltb {a b : Val} (hk : a.kind = b.kind)
    (hu : b.kind ≠ .undef) : Val.ge a b = !Val.lt a b := by
  cases a <;> cases b <;>
      first
        | rfl
        | exact absurd rfl hu
        | (simp only [Val.kind] at hk; cases hk)

theorem Val.ltb_of_ltb_of_not_ltb {a b c : Val} (hk : b.kind = c.kind)
    (h1 : Val.lt a b = true) (h2 : Val.lt c b = false) :
    Val.lt a c = true := by
  cases a <;> cases b <;> cases c <;>
      simp only [Val.kind, Val.lt, Bool.false_eq_true, decide_eq_true_eq,
        decide_eq_false_iff_not, not_lt] at hk h1 h2 ⊢
  all_goals first
    | exact h1.elim
    | omega
    | exact lt_of_lt_of_le h1 h2
    | exact absurd hk (by decide)

theorem Val.ltb_of_not_ltb_of_ltb {a b c : Val} (hk : a.kind = b.kind)
    (h1 : Val.lt b a = false) (h2 : Val.lt b c = true) :
    Val.lt a c = true := by
  cases a <;> cases b <;> cases c <;>
      simp only [Val.kind, Val.lt, Bool.false_eq_true, decide_eq_true_eq,
        decide_eq_false_iff_not, not_lt] at hk h1 h2 ⊢
  all_goals first
    | exact h2.elim
    | omega
    | exact lt_of_le_of_lt h1 h2
    | exact absurd hk (by decide)

theorem Val.geb_mono {a b c : Val} (hka : a.kind = c.kind)
    (hkb : b.kind = c.kind) (h1 : Val.ge a c = true)
    (h2 : Val.lt b a = false) : Val.ge b c = true := by
  cases a <;> cases b <;> cases c <;>
      simp only [Val.kind, Val.ge, Val.lt, Bool.false_eq_true,
        Bool.not_eq_true', decide_eq_true_eq, decide_eq_false_iff_not,
        not_lt] at hka hkb h1 h2 ⊢
  all_goals first
    | exact h1.elim
    | omega
    | exact le_trans h1 h2
    | exact absurd hka (by decide)
    | exact absurd hkb (by decide)

/-! Lemmas about the stable sort model `jsSort`. -/

theorem jsInsert_perm (le : α → α → Bool) (x : α) (l : List α) :
    (jsInsert le x l).Perm (x :: l) := by
  induction l with
  | nil => simp [jsInsert]
  | cons y ys ih =>
    by_cases h : le x y
    · simp [jsInsert, h]
    · simp only [jsInsert, h, Bool.false_eq_true, if_false]
      exact (ih.cons y).trans (List.Perm.swap x y ys)

theorem jsSort_perm (le : α → α → Bool) (l : List α) :
    (jsSort le l).Perm l := by
  induction l with
  | nil => simp [jsSort]
  | cons x xs ih =>
    exact (jsInsert_perm le x (jsSort le xs)).trans (ih.cons x)

theorem mem_jsInsert {le : α → α → Bool} {x z : α} {l : List α} :
    z ∈ jsInsert le x l ↔ z = x ∨ z ∈ l := by
  rw [(jsInsert_perm le x l).mem_iff]
  simp

theorem jsInsert_head (le : α → α → Bool) (x : α) (l : List α) :
    (jsInsert le x l).head? = some x ∨ (jsInsert le x l).head? = l.head? := by
  cases l with
  | nil => simp [jsInsert]
  | cons y ys =>
    by_cases h : le x y <;> simp [jsInsert, h]

theorem jsInsert_chain' {le : α → α → Bool}
    (htot : ∀ a b, le a b = true ∨ le b a = true) (x : α) {l : List α}
    (h : l.Chain' (fun a b => le a b = true)) :
    (jsInsert le x l).Chain' (fun a b => le a b = true) := by
  induction l with
  | nil => simp [jsInsert]
  | cons y ys ih =>
    rw [List.chain'_cons'] at h
    by_cases hxy : le x y
    · simp only [jsInsert, hxy, if_true]
      exact List.chain'_cons'.mpr ⟨by simpa using hxy, List.chain'_cons'.mpr h⟩
    · simp only [jsInsert, hxy, Bool.false_eq_true, if_false]
      refine List.chain'_cons'.mpr ⟨?_, ih h.2⟩
      intro w hw
      rcases jsInsert_head le x ys with hh | hh


      · rw [hh] at hw
        cases hw
        rcases htot x y with hc | hc
        · exact absurd hc hxy
        · exact hc
      · rw [hh] at hw
        exact h.1 w hw

theorem jsSort_chain' {le : α → α → Bool}
    (htot : ∀ a b, le a b = true ∨ le b a = true) (l : List α) :
    (jsSort le l).Chain' (fun a b => le a b = true) := by
  induction l with
  | nil => simp [jsSort]
  | cons x xs ih => exact jsInsert_chain' htot x ih

theorem jsInsert_pairwise {le : α → α → Bool}
    (htot : ∀ a b, le a b = true ∨ le b a = true)
    (htrans : ∀ a b c, le a b = true → le b c = true → le a c = true)
    (x : α) {l : List α} (h : l.Pairwise (fun a b => le a b = true)) :
    (jsInsert le x l).Pairwise (fun a b => le a b = true) := by
  induction l with
  | nil => simp [jsInsert]
  | cons y ys ih =>
    rw [List.pairwise_cons] at h
    by_cases hxy : le x y
    · simp only [jsInsert, hxy, if_true]
      refine List.pairwise_cons.mpr ⟨?_, List.pairwise_cons.mpr h⟩
      intro z hz
      rcases List.mem_cons.mp hz with rfl | hz
      · exact hxy
      · exact htrans x y z hxy (h.1 z hz)
    · simp only [jsInsert, hxy, Bool.false_eq_true, if_false]
      refine List.pairwise_cons.mpr ⟨?_, ih h.2⟩
      intro z hz
      rcases mem_jsInsert.mp hz with rfl | hz
      · rcases htot z y with hc | hc
        · exact absurd hc hxy
        · exact hc
      · exact h.1 z hz

theorem jsSort_pairwise {le : α → α → Bool}
    (htot : ∀ a b, le a b = true ∨ le b a = true)
    (htrans : ∀ a b c, le a b = true → le b c = true → le a c = true)
    (l : List α) :
    (jsSort le l).Pairwise (fun a b => le a b = true) := by
  induction l with
  | nil => simp [jsSort]
  | cons x xs ih => exact jsInsert_pairwise htot htrans x ih

/-- Stability of `jsInsert` for a comparator induced by an integer score:
the elements with any fixed score are preserved in order. -/
theorem jsInsert_filter_score (f : α → Int) (x : α) (l : List α) (sc : Int) :
    (jsInsert (fun a b => decide (f b ≤ f a)) x l).filter
        (fun a => decide (f a = sc)) =
      if f x = sc then x :: l.filter (fun a => decide (f a = sc))
      else l.filter (fun a => decide (f a = sc)) := by
  induction l with
  | nil =>
    by_cases hx : f x = sc <;> simp [jsInsert, List.filter, hx]
  | cons y ys ih =>
    by_cases hxy : f y ≤ f x
    · have hstep : jsInsert (fun a b => decide (f b ≤ f a)) x (y :: ys) =
          x :: y :: ys := by
        simp [jsInsert, hxy]
      rw [hstep, List.filter_cons]
      by_cases hx : f x = sc <;> simp [hx]
    · have hstep : jsInsert (fun a b => decide (f b ≤ f a)) x (y :: ys) =
          y :: jsInsert (fun a b => decide (f b ≤ f a)) x ys := by
        simp [jsInsert, hxy]
      rw [hstep, List.filter_cons, ih]
      by_cases hx : f x = sc
      · have hy : ¬ (f y = sc) := by omega
        simp [hx, hy, List.filter_cons]
      · by_cases hy : f y = sc <;> simp [hx, hy, List.filter_cons]

/-- Stability of `jsSort` for a comparator induced by an integer score. -/
theorem jsSort_filter_score (f : α → Int) (l : List α) (sc : Int) :
    (jsSort (fun a b => decide (f b ≤ f a)) l).filter
        (fun a => decide (f a = sc)) =
      l.filter (fun a => decide (f a = sc)) := by
  induction l with
  | nil => simp [jsSort]
  | cons x xs ih =>
    rw [jsSort, jsInsert_filter_score, ih, List.filter_cons]
    by_cases hx : f x = sc <;> simp [hx]

/-! Lemmas about the three-way comparators `cmpVal` and `cmpRows`. -/

theorem cmpVal_cases (p q : Val) :
    (cmpVal p q = -1 ∧ Val.lt p q = true) ∨
    (cmpVal p q = 1 ∧ Val.lt q p = true) ∨
    (cmpVal p q = 0 ∧ Val.lt p q = false ∧ Val.lt q p = false) := by
  by_cases h1 : Val.lt p q = true
  · exact Or.inl ⟨by simp [cmpVal, h1], h1⟩
  · by_cases h2 : Val.lt q p = true
    · refine Or.inr (Or.inl ⟨?_, h2⟩)
      simp [cmpVal, Val.gt, h1, h2]
    · refine Or.inr (Or.inr ⟨?_, by simpa using h1, by simpa using h2⟩)
      simp [cmpVal, Val.gt, h1, h2]

theorem cmpVal_self (p : Val) : cmpVal p p = 0 := by
  simp [cmpVal, Val.gt, Val.ltb_irrefl]

theorem cmpVal_eq_zero {p q : Val} (hk : p.kind = q.kind)
    (h : cmpVal p q = 0) : p = q := by
  rcases cmpVal_cases p q with ⟨hc, _⟩ | ⟨hc, _⟩ | ⟨_, h1, h2⟩
  · omega
  · omega
  · exact Val.eq_of_not_ltb hk h1 h2

theorem cmpRows_self (pk : List String) (a : Row) : cmpRows pk a a = 0 := by
  induction pk with
  | nil => rfl
  | cons k ks ih => simp [cmpRows, cmpVal_self, ih]

theorem cmpRows_eq_zero_of_eq {pk : List String} {a b : Row}
    (h : ∀ k ∈ pk, rowGet a k = rowGet b k) : cmpRows pk a b = 0 := by
  induction pk with
  | nil => rfl
  | cons k ks ih =>
    have hk := h k (by simp)
    simp [cmpRows, hk, cmpVal_self, ih (fun j hj => h j (by simp [hj]))]

theorem cmpRows_cols_eq {pk : List String} {a b : Row}
    (hk : ∀ k ∈ pk, (rowGet a k).kind = (rowGet b k).kind)
    (h : cmpRows pk a b = 0) : ∀ k ∈ pk, rowGet a k = rowGet b k := by
  induction pk with
  | nil => simp
  | cons k ks ih =>
    intro j hj
    rw [cmpRows] at h
    by_cases hc : cmpVal (rowGet a k) (rowGet b k) = 0
    · have heq := cmpVal_eq_zero (hk k (by simp)) hc
      rcases List.mem_cons.mp hj with rfl | hj
      · exact heq
      · exact ih (fun i hi => hk i (by simp [hi])) (by simpa [hc] using h) j hj
    · simp only [hc, if_false] at h

theorem cmpRows_antisymm (pk : List String) (a b : Row) :
    cmpRows pk b a = -(cmpRows pk a b) := by
  induction pk with
  | nil => rfl
  | cons k ks ih =>
    rcases cmpVal_cases (rowGet a k) (rowGet b k) with ⟨hc, hl⟩ | ⟨hc, hl⟩ |
        ⟨hc, h1, h2⟩
    · have hc2 : cmpVal (rowGet b k) (rowGet a k) = 1 := by
        simp [cmpVal, Val.gt, Val.ltb_asymm hl, hl]
      simp [cmpRows, hc, hc2]
    · have hc2 : cmpVal (rowGet b k) (rowGet a k) = -1 := by
        simp [cmpVal, hl]
      simp [cmpRows, hc, hc2]
    · have hc2 : cmpVal (rowGet b k) (rowGet a k) = 0 := by
        simp [cmpVal, Val.gt, h1, h2]
      simp [cmpRows, hc, hc2, ih]

theorem cmpRows_strip {pre suf : List String} {a b : Row}
    (h : ∀ k ∈ pre, rowGet a k = rowGet b k) :
    cmpRows (pre ++ suf) a b = cmpRows suf a b := by
  induction pre with
  | nil => rfl
  | cons k ks ih =>
    have hk := h k (by simp)
    simp [cmpRows, hk, cmpVal_self, ih (fun j hj => h j (by simp [hj]))]

theorem cmpRows_head_lt {k : String} {suf : List String} {a b : Row}
    (h : Val.lt (rowGet a k) (rowGet b k) = true) :
    cmpRows (k :: suf) a b = -1 := by
  simp [cmpRows, cmpVal, h]

theorem cmpRows_head_not_gtb {k : String} {suf : List String} {a b : Row}
    (h : cmpRows (k :: suf) a b ≤ 0) :
    Val.lt (rowGet b k) (rowGet a k) = false := by
  rcases cmpVal_cases (rowGet a k) (rowGet b k) with ⟨hc, hl⟩ | ⟨hc, hl⟩ |
      ⟨hc, h1, h2⟩
  · exact Val.ltb_asymm hl
  · rw [cmpRows, hc] at h
    simp at h
  · exact h2

theorem cmpRows_le_trans {pk : List String} {a b c : Row}
    (hab : ∀ k ∈ pk, (rowGet a k).kind = (rowGet b k).kind)
    (hbc : ∀ k ∈ pk, (rowGet b k).kind = (rowGet c k).kind)
    (h1 : cmpRows pk a b ≤ 0) (h2 : cmpRows pk b c ≤ 0) :
    cmpRows pk a c ≤ 0 := by
  induction pk with
  | nil => simp [cmpRows]
  | cons k ks ih =>
    have hkab := hab k (by simp)
    have hkbc := hbc k (by simp)
    rcases cmpVal_cases (rowGet a k) (rowGet b k) with ⟨hc1, hl1⟩ | ⟨hc1, hl1⟩ |
        ⟨hc1, ha1, ha2⟩
    · rcases cmpVal_cases (rowGet b k) (rowGet c k) with ⟨hc2, hl2⟩ |
          ⟨hc2, hl2⟩ | ⟨hc2, hb1, hb2⟩
      · have : Val.lt (rowGet a k) (rowGet c k) = true :=
          Val.ltb_trans hl1 hl2
        rw [cmpRows_head_lt this]
        omega
      · rw [cmpRows, hc2] at h2
        simp at h2
      · have : Val.lt (rowGet a k) (rowGet c k) = true :=
          Val.ltb_of_ltb_of_not_ltb hkbc hl1 hb2
        rw [cmpRows_head_lt this]
        omega
    · rw [cmpRows, hc1] at h1
      simp at h1
    · have heq : rowGet a k = rowGet b k := Val.eq_of_not_ltb hkab ha1 ha2
      rcases cmpVal_cases (rowGet b k) (rowGet c k) with ⟨hc2, hl2⟩ |
          ⟨hc2, hl2⟩ | ⟨hc2, hb1, hb2⟩
      · have : Val.lt (rowGet a k) (rowGet c k) = true := heq ▸ hl2
        rw [cmpRows_head_lt this]
        omega
      · rw [cmpRows, hc2] at h2
        simp at h2
      · have hc3 : cmpVal (rowGet a k) (rowGet c k) = 0 := heq ▸ hc2
        rw [cmpRows, hc1] at h1
        rw [cmpRows, hc2] at h2
        rw [cmpRows, hc3]
        simp only [if_pos rfl] at h1 h2 ⊢
        exact ih (fun j hj => hab j (by simp [hj]))
          (fun j hj => hbc j (by simp [hj])) h1 h2

theorem cmpRows_total (pk : List String) (a b : Row) :
    cmpRows pk a b ≤ 0 ∨ cmpRows pk b a ≤ 0 := by
  rw [cmpRows_antisymm]
  omega

/-! Unfolding equations for the three binary-search loops. -/

theorem binSearchMinLoop_succ (g : Int → Row) (key : String) (v : Val)
    (fuel : Nat) (mn mx : Int) (h : mn ≤ mx) :
    binSearchMinLoop g key v (fuel + 1) mn mx =
      if Val.ge (rowGet (g ((mn + mx).fdiv 2)) key) v
      then binSearchMinLoop g key v fuel mn ((mn + mx).fdiv 2 - 1)
      else binSearchMinLoop g key v fuel ((mn + mx).fdiv 2 + 1) mx := by
  rw [binSearchMinLoop]
  simp [h]

theorem binSearchMinLoop_base (g : Int → Row) (key : String) (v : Val)
    (fuel : Nat) (mn mx : Int) (h : ¬ mn ≤ mx) :
    binSearchMinLoop g key v fuel mn mx = mn := by
  cases fuel with
  | zero => rfl
  | succ n =>
    rw [binSearchMinLoop]
    simp [h]

theorem binSearchMaxLoop_succ (g : Int → Row) (key : String) (v : Val)
    (fuel : Nat) (mn mx : Int) (h : mn ≤ mx) :
    binSearchMaxLoop g key v (fuel + 1) mn mx =
      if Val.gt (rowGet (g ((mn + mx).fdiv 2)) key) v
      then binSearchMaxLoop g key v fuel mn ((mn + mx).fdiv 2 - 1)
      else binSearchMaxLoop g key v fuel ((mn + mx).fdiv 2 + 1) mx := by
  rw [binSearchMaxLoop]
  simp [h]

theorem binSearchMaxLoop_base (g : Int → Row) (key : String) (v : Val)
    (fuel : Nat) (mn mx : Int) (h : ¬ mn ≤ mx) :
    binSearchMaxLoop g key v fuel mn mx = mn := by
  cases fuel with
  | zero => rfl
  | succ n =>
    rw [binSearchMaxLoop]
    simp [h]

theorem binSearchLoop_succ (g : Int → Row) (key : String) (v : Val)
    (fuel : Nat) (mn mx : Int) (h : mn ≤ mx) :
    binSearchLoop g key v (fuel + 1) mn mx =
      if Val.gt (rowGet (g ((mn + mx).fdiv 2)) key) v
      then binSearchLoop g key v fuel mn ((mn + mx).fdiv 2 - 1)
      else if Val.lt (rowGet (g ((mn + mx).fdiv 2)) key) v
      then binSearchLoop g key v fuel ((mn + mx).fdiv 2 + 1) mx
      else { PX_index := (mn + mx).fdiv 2, dataRow := some (g ((mn + mx).fdiv 2)) } := by
  rw [binSearchLoop]
  simp [h]

theorem binSearchLoop_base (g : Int → Row) (key : String) (v : Val)
    (fuel : Nat) (mn mx : Int) (h : ¬ mn ≤ mx) :
    binSearchLoop g key v fuel mn mx = { PX_index := mn, dataRow := none } := by
  cases fuel with
  | zero => rfl
  | succ n =>
    rw [binSearchLoop]
    simp [h]

/-- Characterization of `binSearchMin`: under monotonicity of the `>=` test
along the range, the result splits the range into a failing front segment
and a passing back segment. -/
theorem binSearchMinLoop_spec (g : Int → Row) (key : String) (v : Val) :
    ∀ (fuel : Nat) (mn mx : Int), (mx + 1 - mn).toNat ≤ fuel →
    (∀ i j, mn ≤ i → i ≤ j → j ≤ mx →
      Val.ge (rowGet (g i) key) v = true → Val.ge (rowGet (g j) key) v = true) →
    mn ≤ mx + 1 →
    mn ≤ binSearchMinLoop g key v fuel mn mx ∧ binSearchMinLoop g key v fuel mn mx ≤ mx + 1 ∧
    (∀ i, mn ≤ i → i < binSearchMinLoop g key v fuel mn mx →
      Val.ge (rowGet (g i) key) v = false) ∧
    (∀ i, binSearchMinLoop g key v fuel mn mx ≤ i → i ≤ mx →
      Val.ge (rowGet (g i) key) v = true) := by
  intro fuel
  induction fuel with
  | zero =>
    intro mn mx hf hmono hlohi
    have hbase : ¬ mn ≤ mx := by omega
    rw [binSearchMinLoop_base g key v 0 mn mx hbase]
    refine ⟨le_refl mn, hlohi, ?_, ?_⟩
    · intro i h1 h2
      omega
    · intro i h1 h2
      omega
  | succ n ih =>
    intro mn mx hf hmono hlohi
    by_cases h : mn ≤ mx
    · have hmid := mid_bounds mn mx h
      rw [binSearchMinLoop_succ g key v n mn mx h]
      by_cases hge : Val.ge (rowGet (g ((mn + mx).fdiv 2)) key) v = true
      · rw [if_pos hge]
        have IH := ih mn ((mn + mx).fdiv 2 - 1) (by omega)
          (fun i j h1 h2 h3 => hmono i j h1 h2 (by omega)) (by omega)
        refine ⟨IH.1, by omega, IH.2.2.1, ?_⟩
        intro i h1 h2
        by_cases hile : i ≤ (mn + mx).fdiv 2 - 1
        · exact IH.2.2.2 i h1 hile
        · exact hmono ((mn + mx).fdiv 2) i (by omega) (by omega) h2 hge
      · rw [if_neg hge]
        have IH := ih ((mn + mx).fdiv 2 + 1) mx (by omega)
          (fun i j h1 h2 h3 => hmono i j (by omega) h2 h3) (by omega)
        refine ⟨by omega, IH.2.1, ?_, IH.2.2.2⟩
        intro i h1 h2
        by_cases hige : (mn + mx).fdiv 2 + 1 ≤ i
        · exact IH.2.2.1 i hige h2
        · have hi2 : Val.ge (rowGet (g i) key) v = true →
              Val.ge (rowGet (g ((mn + mx).fdiv 2)) key) v = true :=
            hmono i ((mn + mx).fdiv 2) h1 (by omega) (by omega)
          cases hcase : Val.ge (rowGet (g i) key) v
          · rfl
          · exact absurd (hi2 hcase) hge
    · rw [binSearchMinLoop_base g key v (n + 1) mn mx h]
      refine ⟨le_refl mn, hlohi, ?_, ?_⟩
      · intro i h1 h2
        omega
      · intro i h1 h2
        omega

/-- Characterization of `binSearchMax`: under monotonicity of the `>` test
along the range, the result splits the range into a failing front segment
and a passing back segment. -/
theorem binSearchMaxLoop_spec (g : Int → Row) (key : String) (v : Val) :
    ∀ (fuel : Nat) (mn mx : Int), (mx + 1 - mn).toNat ≤ fuel →
    (∀ i j, mn ≤ i → i ≤ j → j ≤ mx →
      Val.gt (rowGet (g i) key) v = true → Val.gt (rowGet (g j) key) v = true) →
    mn ≤ mx + 1 →
    mn ≤ binSearchMaxLoop g key v fuel mn mx ∧ binSearchMaxLoop g key v fuel mn mx ≤ mx + 1 ∧
    (∀ i, mn ≤ i → i < binSearchMaxLoop g key v fuel mn mx →
      Val.gt (rowGet (g i) key) v = false) ∧
    (∀ i, binSearchMaxLoop g key v fuel mn mx ≤ i → i ≤ mx →
      Val.gt (rowGet (g i) key) v = true) := by
  intro fuel
  induction fuel with
  | zero =>
    intro mn mx hf hmono hlohi
    have hbase : ¬ mn ≤ mx := by omega
    rw [binSearchMaxLoop_base g key v 0 mn mx hbase]
    refine ⟨le_refl mn, hlohi, ?_, ?_⟩
    · intro i h1 h2
      omega
    · intro i h1 h2
      omega
  | succ n ih =>
    intro mn mx hf hmono hlohi
    by_cases h : mn ≤ mx
    · have hmid := mid_bounds mn mx h
      rw [binSearchMaxLoop_succ g key v n mn mx h]
      by_cases hgt : Val.gt (rowGet (g ((mn + mx).fdiv 2)) key) v = true
      · rw [if_pos hgt]
        have IH := ih mn ((mn + mx).fdiv 2 - 1) (by omega)
          (fun i j h1 h2 h3 => hmono i j h1 h2 (by omega)) (by omega)
        refine ⟨IH.1, by omega, IH.2.2.1, ?_⟩
        intro i h1 h2
        by_cases hile : i ≤ (mn + mx).fdiv 2 - 1
        · exact IH.2.2.2 i h1 hile
        · exact hmono ((mn + mx).fdiv 2) i (by omega) (by omega) h2 hgt
      · rw [if_neg hgt]
        have IH := ih ((mn + mx).fdiv 2 + 1) mx (by omega)
          (fun i j h1 h2 h3 => hmono i j (by omega) h2 h3) (by omega)
        refine ⟨by omega, IH.2.1, ?_, IH.2.2.2⟩
        intro i h1 h2
        by_cases hige : (mn + mx).fdiv 2 + 1 ≤ i
        · exact IH.2.2.1 i hige h2
        · have hi2 : Val.gt (rowGet (g i) key) v = true →
              Val.gt (rowGet (g ((mn + mx).fdiv 2)) key) v = true :=
            hmono i ((mn + mx).fdiv 2) h1 (by omega) (by omega)
          cases hcase : Val.gt (rowGet (g i) key) v
          · rfl
          · exact absurd (hi2 hcase) hgt
    · rw [binSearchMaxLoop_base g key v (n + 1) mn mx h]
      refine ⟨le_refl mn, hlohi, ?_, ?_⟩
      · intro i h1 h2
        omega
      · intro i h1 h2
        omega

/-- Characterization of `binSearch` over a range whose column values are
sorted and kind-uniform with the target: a found result returns a row of the
range whose column value equals the target; a not-found result returns the
insertion point, with strictly smaller column values before it and strictly
larger ones from it on. -/
theorem binSearchLoop_spec (g : Int → Row) (key : String) (v : Val) :
    ∀ (fuel : Nat) (mn mx : Int), (mx + 1 - mn).toNat ≤ fuel →
    (∀ i j, mn ≤ i → i ≤ j → j ≤ mx →
      Val.lt (rowGet (g j) key) (rowGet (g i) key) = false) →
    (∀ i, mn ≤ i → i ≤ mx → (rowGet (g i) key).kind = v.kind) →
    mn ≤ mx + 1 →
    (∀ row, (binSearchLoop g key v fuel mn mx).dataRow = some row →
      mn ≤ (binSearchLoop g key v fuel mn mx).PX_index ∧
      (binSearchLoop g key v fuel mn mx).PX_index ≤ mx ∧
      row = g (binSearchLoop g key v fuel mn mx).PX_index ∧ rowGet row key = v) ∧
    ((binSearchLoop g key v fuel mn mx).dataRow = none →
      mn ≤ (binSearchLoop g key v fuel mn mx).PX_index ∧
      (binSearchLoop g key v fuel mn mx).PX_index ≤ mx + 1 ∧
      (∀ i, mn ≤ i → i < (binSearchLoop g key v fuel mn mx).PX_index →
        Val.lt (rowGet (g i) key) v = true) ∧
      (∀ i, (binSearchLoop g key v fuel mn mx).PX_index ≤ i → i ≤ mx →
        Val.lt v (rowGet (g i) key) = true)) := by
  intro fuel
  induction fuel with
  | zero =>
    intro mn mx hf hsorted hkind hlohi
    have hbase : ¬ mn ≤ mx := by omega
    rw [binSearchLoop_base g key v 0 mn mx hbase]
    constructor
    · intro row hrow
      exact absurd hrow (by simp)
    · intro _
      refine ⟨le_refl mn, hlohi, ?_, ?_⟩
      · intro i h1 h2
        dsimp only at h2
        omega
      · intro i h1 h2
        dsimp only at h1
        omega
  | succ n ih =>
    intro mn mx hf hsorted hkind hlohi
    by_cases h : mn ≤ mx
    · have hmid := mid_bounds mn mx h
      rw [binSearchLoop_succ g key v n mn mx h]
      by_cases hgt : Val.gt (rowGet (g ((mn + mx).fdiv 2)) key) v = true
      · rw [if_pos hgt]
        have IH := ih mn ((mn + mx).fdiv 2 - 1) (by omega)
          (fun i j h1 h2 h3 => hsorted i j h1 h2 (by omega))
          (fun i h1 h2 => hkind i h1 (by omega)) (by omega)
        refine ⟨fun row hrow => ?_, fun hnone => ?_⟩
        · have hfnd := IH.1 row hrow
          exact ⟨hfnd.1, by omega, hfnd.2.2.1, hfnd.2.2.2⟩
        · have hnf := IH.2 hnone
          refine ⟨hnf.1, by omega, hnf.2.2.1, ?_⟩
          intro i h1 h2
          by_cases hile : i ≤ (mn + mx).fdiv 2 - 1
          · exact hnf.2.2.2 i h1 hile
          · have hvmid : Val.lt v (rowGet (g ((mn + mx).fdiv 2)) key) = true := hgt
            by_cases hieq : i = (mn + mx).fdiv 2
            · rw [hieq]
              exact hvmid
            · have hknd : (rowGet (g ((mn + mx).fdiv 2)) key).kind =
                  (rowGet (g i) key).kind := by
                rw [hkind ((mn + mx).fdiv 2) (by omega) (by omega),
                  hkind i (by omega) h2]
              exact Val.ltb_of_ltb_of_not_ltb hknd hvmid
                (hsorted ((mn + mx).fdiv 2) i (by omega) (by omega) h2)
      · rw [if_neg hgt]
        by_cases hlt : Val.lt (rowGet (g ((mn + mx).fdiv 2)) key) v = true
        · rw [if_pos hlt]
          have IH := ih ((mn + mx).fdiv 2 + 1) mx (by omega)
            (fun i j h1 h2 h3 => hsorted i j (by omega) h2 h3)
            (fun i h1 h2 => hkind i (by omega) h2) (by omega)
          refine ⟨fun row hrow => ?_, fun hnone => ?_⟩
          · have hfnd := IH.1 row hrow
            exact ⟨by omega, hfnd.2.1, hfnd.2.2.1, hfnd.2.2.2⟩
          · have hnf := IH.2 hnone
            refine ⟨by omega, hnf.2.1, ?_, hnf.2.2.2⟩
            intro i h1 h2
            by_cases hige : (mn + mx).fdiv 2 + 1 ≤ i
            · exact hnf.2.2.1 i hige h2
            · by_cases hieq : i = (mn + mx).fdiv 2
              · rw [hieq]
                exact hlt
              · have hknd : (rowGet (g i) key).kind =
                    (rowGet (g ((mn + mx).fdiv 2)) key).kind := by
                  rw [hkind ((mn + mx).fdiv 2) (by omega) (by omega),
                    hkind i h1 (by omega)]
                exact Val.ltb_of_not_ltb_of_ltb hknd
                  (hsorted i ((mn + mx).fdiv 2) h1 (by omega) (by omega)) hlt
        · rw [if_neg hlt]
          constructor
          · intro row hrow
            have hroweq : row = g ((mn + mx).fdiv 2) := by
              simpa using hrow.symm
            refine ⟨by simpa using hmid.1, by simpa using hmid.2, by simpa using hroweq, ?_⟩
            rw [hroweq]
            have hkm : (rowGet (g ((mn + mx).fdiv 2)) key).kind = v.kind :=
              hkind ((mn + mx).fdiv 2) (by omega) (by omega)
            have hgt2 : Val.lt v (rowGet (g ((mn + mx).fdiv 2)) key) = false := by
              simpa [Val.gt] using hgt
            exact Val.eq_of_not_ltb hkm (by simpa using hlt) hgt2
          · intro hnone
            exact absurd hnone (by simp)
    · rw [binSearchLoop_base g key v (n + 1) mn mx h]
      constructor
      · intro row hrow
        exact absurd hrow (by simp)
      · intro _
        refine ⟨le_refl mn, hlohi, ?_, ?_⟩
        · intro i h1 h2
          dsimp only at h2
          omega
        · intro i h1 h2
          dsimp only at h1
          omega

/-- `binSearchMin` satisfies the loop characterization at the loop's actual
fuel, which the wrapper supplies. -/
theorem binSearchMin_spec (g : Int → Row) (key : String) (v : Val)
    (mn mx : Int)
    (hmono : ∀ i j, mn ≤ i → i ≤ j → j ≤ mx →
      Val.ge (rowGet (g i) key) v = true → Val.ge (rowGet (g j) key) v = true)
    (hlohi : mn ≤ mx + 1) :
    mn ≤ binSearchMin g key v mn mx ∧ binSearchMin g key v mn mx ≤ mx + 1 ∧
    (∀ i, mn ≤ i → i < binSearchMin g key v mn mx →
      Val.ge (rowGet (g i) key) v = false) ∧
    (∀ i, binSearchMin g key v mn mx ≤ i → i ≤ mx →
      Val.ge (rowGet (g i) key) v = true) :=
  binSearchMinLoop_spec g key v ((mx + 1 - mn).toNat) mn mx (le_refl _) hmono hlohi

/-- `binSearchMax` satisfies the loop characterization at the loop's actual
fuel, which the wrapper supplies. -/
theorem binSearchMax_spec (g : Int → Row) (key : String) (v : Val)
    (mn mx : Int)
    (hmono : ∀ i j, mn ≤ i → i ≤ j → j ≤ mx →
      Val.gt (rowGet (g i) key) v = true → Val.gt (rowGet (g j) key) v = true)
    (hlohi : mn ≤ mx + 1) :
    mn ≤ binSearchMax g key v mn mx ∧ binSearchMax g key v mn mx ≤ mx + 1 ∧
    (∀ i, mn ≤ i → i < binSearchMax g key v mn mx →
      Val.gt (rowGet (g i) key) v = false) ∧
    (∀ i, binSearchMax g key v mn mx ≤ i → i ≤ mx →
      Val.gt (rowGet (g i) key) v = true) :=
  binSearchMaxLoop_spec g key v ((mx + 1 - mn).toNat) mn mx (le_refl _) hmono hlohi

/-- `binSearch` satisfies the loop characterization at the loop's actual
fuel, which the wrapper supplies. -/
theorem binSearch_spec (g : Int → Row) (key : String) (v : Val)
    (mn mx : Int)
    (hsorted : ∀ i j, mn ≤ i → i ≤ j → j ≤ mx →
      Val.lt (rowGet (g j) key) (rowGet (g i) key) = false)
    (hkind : ∀ i, mn ≤ i → i ≤ mx → (rowGet (g i) key).kind = v.kind)
    (hlohi : mn ≤ mx + 1) :
    (∀ row, (binSearch g key v mn mx).dataRow = some row →
      mn ≤ (binSearch g key v mn mx).PX_index ∧
      (binSearch g key v mn mx).PX_index ≤ mx ∧
      row = g (binSearch g key v mn mx).PX_index ∧ rowGet row key = v) ∧
    ((binSearch g key v mn mx).dataRow = none →
      mn ≤ (binSearch g key v mn mx).PX_index ∧
      (binSearch g key v mn mx).PX_index ≤ mx + 1 ∧
      (∀ i, mn ≤ i → i < (binSearch g key v mn mx).PX_index →
        Val.lt (rowGet (g i) key) v = true) ∧
      (∀ i, (binSearch g key v mn mx).PX_index ≤ i → i ≤ mx →
        Val.lt v (rowGet (g i) key) = true)) :=
  binSearchLoop_spec g key v ((mx + 1 - mn).toNat) mn mx (le_refl _) hsorted hkind hlohi

theorem Val.geb_refl {v : Val} (h : v.kind ≠ .undef) : Val.ge v v = true := by
  cases v
  · exact absurd rfl h
  · simp [Val.ge]
  · simp [Val.ge]

/-- Invariant carried by the narrowing loop of `find`: `done` lists the
(column, target value) pairs already processed and `[mn, mx]` is the current
candidate range; rows inside the range match every processed column, rows
outside differ in some processed column and are strictly on the proper side
of the target tuple `t` in full-PK lexicographic order. -/
structure NarrowInv (g : Int → Row) (pk : List String) (t : Row) (n : Int)
    (done : List (String × Val)) (mn mx : Int) : Prop where
  lo : 0 ≤ mn
  hi : mx ≤ n - 1
  lohi : mn ≤ mx + 1
  band : ∀ i, mn ≤ i → i ≤ mx → ∀ p ∈ done, rowGet (g i) p.1 = p.2
  leftNe : ∀ i, 0 ≤ i → i < mn → ∃ p ∈ done, rowGet (g i) p.1 ≠ p.2
  leftLt : ∀ i, 0 ≤ i → i < mn → cmpRows pk (g i) t < 0
  rightNe : ∀ i, mx < i → i ≤ n - 1 → ∃ p ∈ done, rowGet (g i) p.1 ≠ p.2
  rightLt : ∀ i, mx < i → i ≤ n - 1 → cmpRows pk t (g i) < 0

/-- One narrowing pass preserves the invariant, extending `done` by the
processed pair. -/
theorem narrowStep_inv (g : Int → Row) (pk : List String) (t : Row) (n : Int)
    (done : List (String × Val)) (k : String) (v : Val)
    (restCols : List String) (mn mx : Int)
    (hpk : pk = done.map Prod.fst ++ k :: restCols)
    (ht : rowGet t k = v)
    (htdone : ∀ p ∈ done, rowGet t p.1 = p.2)
    (hvu : v.kind ≠ .undef)
    (hkind : ∀ i, 0 ≤ i → i ≤ n - 1 → (rowGet (g i) k).kind = v.kind)
    (hsorted : ∀ i j, 0 ≤ i → i ≤ j → j ≤ n - 1 → cmpRows pk (g i) (g j) ≤ 0)
    (inv : NarrowInv g pk t n done mn mx) :
    NarrowInv g pk t n (done ++ [(k, v)])
      (narrowStep g (mn, mx) (k, v)).1 (narrowStep g (mn, mx) (k, v)).2 := by
  have hlo := inv.lo
  have hhi := inv.hi
  have hlohi := inv.lohi
  have hcols : ∀ i j, mn ≤ i → i ≤ mx → mn ≤ j → j ≤ mx →
      ∀ c ∈ done.map Prod.fst, rowGet (g i) c = rowGet (g j) c := by
    intro i j hi1 hi2 hj1 hj2 c hc
    obtain ⟨p, hp, rfl⟩ := List.mem_map.mp hc
    rw [inv.band i hi1 hi2 p hp, inv.band j hj1 hj2 p hp]
  have hnotgt : ∀ i j, mn ≤ i → i ≤ j → j ≤ mx →
      Val.lt (rowGet (g j) k) (rowGet (g i) k) = false := by
    intro i j hi hij hj
    have hle : cmpRows (k :: restCols) (g i) (g j) ≤ 0 := by
      have h0 := hsorted i j (by omega) hij (by omega)
      rw [hpk, cmpRows_strip (hcols i j hi (by omega) (by omega) hj)] at h0
      exact h0
    exact cmpRows_head_not_gtb hle
  have hmono : ∀ i j, mn ≤ i → i ≤ j → j ≤ mx →
      Val.ge (rowGet (g i) k) v = true → Val.ge (rowGet (g j) k) v = true := by
    intro i j hi hij hj hge
    exact Val.geb_mono (hkind i (by omega) (by omega))
      (hkind j (by omega) (by omega)) hge (hnotgt i j hi hij hj)
  have H1 := binSearchMin_spec g k v mn mx hmono inv.lohi
  set m1 := binSearchMin g k v mn mx with hm1
  have hm1a := H1.1
  have hm1b := H1.2.1
  have hmonogt : ∀ i j, m1 ≤ i → i ≤ j → j ≤ mx →
      Val.gt (rowGet (g i) k) v = true → Val.gt (rowGet (g j) k) v = true := by
    intro i j hi hij hj hgt
    have hknd : (rowGet (g i) k).kind = (rowGet (g j) k).kind := by
      rw [hkind i (by omega) (by omega), hkind j (by omega) (by omega)]
    exact Val.ltb_of_ltb_of_not_ltb hknd hgt
      (hnotgt i j (by omega) hij hj)
  have H2 := binSearchMax_spec g k v m1 mx hmonogt (by omega)
  set m2 := binSearchMax g k v m1 mx with hm2
  have hm2a := H2.1
  have hm2b := H2.2.1
  have hres : narrowStep g (mn, mx) (k, v) = (m1, m2 - 1) := by
    simp only [narrowStep, hm1, hm2]
  rw [hres]
  have hbandnew : ∀ i, m1 ≤ i → i ≤ m2 - 1 → rowGet (g i) k = v := by
    intro i h1 h2
    have hge := H1.2.2.2 i h1 (by omega)
    have hgt := H2.2.2.1 i h1 (by omega)
    have hk := hkind i (by omega) (by omega)
    rw [Val.geb_eq_not_ltb hk hvu] at hge
    have hlt : Val.lt (rowGet (g i) k) v = false := by
      cases hc : Val.lt (rowGet (g i) k) v
      · rfl
      · rw [hc] at hge
        exact absurd hge (by simp)
    exact Val.eq_of_not_ltb hk hlt hgt
  refine ⟨by omega, by omega, by omega, ?_, ?_, ?_, ?_, ?_⟩
  · intro i h1 h2 p hp
    rcases List.mem_append.mp hp with hp | hp
    · exact inv.band i (by omega) (by omega) p hp
    · rcases List.mem_singleton.mp hp with rfl
      exact hbandnew i h1 h2
  · intro i h1 h2
    by_cases hcase : i < mn
    · obtain ⟨p, hp, hne⟩ := inv.leftNe i h1 hcase
      exact ⟨p, List.mem_append.mpr (Or.inl hp), hne⟩
    · refine ⟨(k, v), List.mem_append.mpr (Or.inr (by simp)), ?_⟩
      have hge := H1.2.2.1 i (by omega) (by omega)
      intro heq
      dsimp only at heq
      rw [heq, Val.geb_refl hvu] at hge
      exact absurd hge (by simp)
  · intro i h1 h2
    by_cases hcase : i < mn
    · exact inv.leftLt i h1 hcase
    · have hge := H1.2.2.1 i (by omega) h2
      have hk := hkind i (by omega) (by omega)
      rw [Val.geb_eq_not_ltb hk hvu] at hge
      have hlt : Val.lt (rowGet (g i) k) v = true := by
        cases hc : Val.lt (rowGet (g i) k) v
        · rw [hc] at hge
          exact absurd hge (by simp)
        · rfl
      have hcols2 : ∀ c ∈ done.map Prod.fst, rowGet (g i) c = rowGet t c := by
        intro c hc
        obtain ⟨p, hp, rfl⟩ := List.mem_map.mp hc
        rw [inv.band i (by omega) (by omega) p hp, htdone p hp]
      rw [hpk, cmpRows_strip hcols2, cmpRows_head_lt (by rw [ht]; exact hlt)]
      omega
  · intro i h1 h2
    by_cases hcase : mx < i
    · obtain ⟨p, hp, hne⟩ := inv.rightNe i hcase h2
      exact ⟨p, List.mem_append.mpr (Or.inl hp), hne⟩
    · refine ⟨(k, v), List.mem_append.mpr (Or.inr (by simp)), ?_⟩
      have hgt := H2.2.2.2 i (by omega) (by omega)
      intro heq
      dsimp only at heq
      rw [heq] at hgt
      rw [Val.gt, Val.ltb_irrefl] at hgt
      exact absurd hgt (by simp)
  · intro i h1 h2
    by_cases hcase : mx < i
    · exact inv.rightLt i hcase h2
    · have hgt := H2.2.2.2 i (by omega) (by omega)
      have hcols2 : ∀ c ∈ done.map Prod.fst, rowGet t c = rowGet (g i) c := by
        intro c hc
        obtain ⟨p, hp, rfl⟩ := List.mem_map.mp hc
        rw [inv.band i (by omega) (by omega) p hp, htdone p hp]
      rw [hpk, cmpRows_strip hcols2, cmpRows_head_lt (by rw [ht]; exact hgt)]
      omega

/-- The whole narrowing fold preserves the invariant. -/
theorem narrowFold_inv (g : Int → Row) (pk : List String) (t : Row) (n : Int)
    (klast : String)
    (hsorted : ∀ i j, 0 ≤ i → i ≤ j → j ≤ n - 1 → cmpRows pk (g i) (g j) ≤ 0) :
    ∀ (rest done : List (String × Val)) (mn mx : Int),
    pk = (done ++ rest).map Prod.fst ++ [klast] →
    (∀ p ∈ done, rowGet t p.1 = p.2) →
    (∀ p ∈ rest, p.2.kind ≠ Kind.undef ∧ rowGet t p.1 = p.2 ∧
      ∀ i, 0 ≤ i → i ≤ n - 1 → (rowGet (g i) p.1).kind = p.2.kind) →
    NarrowInv g pk t n done mn mx →
    NarrowInv g pk t n (done ++ rest)
      (rest.foldl (narrowStep g) (mn, mx)).1
      (rest.foldl (narrowStep g) (mn, mx)).2 := by
  intro rest
  induction rest with
  | nil =>
    intro done mn mx hpk htdone hrest inv
    simpa using inv
  | cons kv rest2 ih =>
    intro done mn mx hpk htdone hrest inv
    obtain ⟨k, v⟩ := kv
    have hhead := hrest (k, v) (by simp)
    have hstep := narrowStep_inv g pk t n done k v
      (rest2.map Prod.fst ++ [klast]) mn mx
      (by simpa using hpk) hhead.2.1 htdone hhead.1 hhead.2.2 hsorted inv
    have hih := ih (done ++ [(k, v)])
      (narrowStep g (mn, mx) (k, v)).1 (narrowStep g (mn, mx) (k, v)).2
      (by simpa using hpk)
      (by
        intro p hp
        rcases List.mem_append.mp hp with hp | hp
        · exact htdone p hp
        · rcases List.mem_singleton.mp hp with rfl
          exact hhead.2.1)
      (fun p hp => hrest p (by simp [hp]))
      hstep
    simpa using hih

/-- Master correctness theorem for the search loop of `find`, over an
accessor `g` whose rows are sorted by the PK comparator on positions
`0..n-1` and whose PK-column values are kind-uniform with the (non-undefined)
target values: a found result returns a row of the range whose PK tuple
compares equal to the target tuple `t`; a not-found result returns the
insertion point, with every position before it strictly below `t` and every
position from it on strictly above `t` in PK-lexicographic order. -/
theorem searchPhase_spec (g : Int → Row) (t : Row) (n : Int)
    (ks : List String) (klast : String) (vs : List Val) (vlast : Val)
    (pk : List String) (vals : List Val)
    (hpk : pk = ks ++ [klast]) (hvals : vals = vs ++ [vlast])
    (hklen : ks.length = vs.length)
    (ht : ∀ p ∈ pk.zip vals, rowGet t p.1 = p.2)
    (hkinds : ∀ p ∈ pk.zip vals, p.2.kind ≠ Kind.undef ∧
      ∀ i, 0 ≤ i → i ≤ n - 1 → (rowGet (g i) p.1).kind = p.2.kind)
    (hsorted : ∀ i j, 0 ≤ i → i ≤ j → j ≤ n - 1 → cmpRows pk (g i) (g j) ≤ 0)
    (hn : 0 ≤ n) :
    (∀ row, (searchPhase g pk vals 0 (n - 1)).dataRow = some row →
      0 ≤ (searchPhase g pk vals 0 (n - 1)).PX_index ∧
      (searchPhase g pk vals 0 (n - 1)).PX_index ≤ n - 1 ∧
      row = g (searchPhase g pk vals 0 (n - 1)).PX_index ∧
      cmpRows pk row t = 0) ∧
    ((searchPhase g pk vals 0 (n - 1)).dataRow = none →
      0 ≤ (searchPhase g pk vals 0 (n - 1)).PX_index ∧
      (searchPhase g pk vals 0 (n - 1)).PX_index ≤ n ∧
      (∀ i, 0 ≤ i → i < (searchPhase g pk vals 0 (n - 1)).PX_index →
        cmpRows pk (g i) t < 0) ∧
      (∀ i, (searchPhase g pk vals 0 (n - 1)).PX_index ≤ i → i ≤ n - 1 →
        cmpRows pk t (g i) < 0)) := by
  have hzip : pk.zip vals = ks.zip vs ++ [(klast, vlast)] := by
    rw [hpk, hvals, List.zip_append hklen]
    simp
  have hmemlast : (klast, vlast) ∈ pk.zip vals := by
    rw [hzip]
    simp
  have htk : rowGet t klast = vlast := ht (klast, vlast) hmemlast
  have hkl : ∀ i, 0 ≤ i → i ≤ n - 1 → (rowGet (g i) klast).kind = vlast.kind :=
    (hkinds (klast, vlast) hmemlast).2
  have hmapfst : (ks.zip vs).map Prod.fst = ks := List.map_fst_zip ks vs (by omega)
  have hbase : NarrowInv g pk t n [] 0 (n - 1) :=
    ⟨le_refl 0, le_refl (n - 1), by omega,
      fun i _ _ p hp => absurd hp (List.not_mem_nil p),
      fun i h1 h2 => absurd h1 (by omega),
      fun i h1 h2 => absurd h1 (by omega),
      fun i h1 h2 => absurd h2 (by omega),
      fun i h1 h2 => absurd h2 (by omega)⟩
  have hinv := narrowFold_inv g pk t n klast hsorted (ks.zip vs) [] 0 (n - 1)
    (by rw [List.nil_append, hmapfst, hpk])
    (fun p hp => absurd hp (List.not_mem_nil p))
    (fun p hp => by
      have hpmem : p ∈ pk.zip vals := by
        rw [hzip]
        exact List.mem_append.mpr (Or.inl hp)
      exact ⟨(hkinds p hpmem).1, ht p hpmem, (hkinds p hpmem).2⟩)
    hbase
  rw [List.nil_append] at hinv
  have hdrop1 : pk.dropLast = ks := by
    rw [hpk, List.dropLast_concat]
  have hdrop2 : vals.dropLast = vs := by
    rw [hvals, List.dropLast_concat]
  have hlast1 : pk.getLastD "undefined" = klast := by
    rw [hpk, List.getLastD_concat]
  have hlast2 : vals.getLastD .undef = vlast := by
    rw [hvals, List.getLastD_concat]
  have hphase : searchPhase g pk vals 0 (n - 1) =
      binSearch g klast vlast
        ((ks.zip vs).foldl (narrowStep g) (0, n - 1)).1
        ((ks.zip vs).foldl (narrowStep g) (0, n - 1)).2 := by
    rw [searchPhase, hdrop1, hdrop2, hlast1, hlast2]
  set mm := (ks.zip vs).foldl (narrowStep g) (0, n - 1) with hmm
  have hbandcols : ∀ i, mm.1 ≤ i → i ≤ mm.2 → ∀ c ∈ ks,
      rowGet (g i) c = rowGet t c := by
    intro i h1 h2 c hc
    rw [← hmapfst] at hc
    obtain ⟨p, hp, rfl⟩ := List.mem_map.mp hc
    have hpmem : p ∈ pk.zip vals := by
      rw [hzip]
      exact List.mem_append.mpr (Or.inl hp)
    rw [hinv.band i h1 h2 p hp, ht p hpmem]
  have hsortcol : ∀ i j, mm.1 ≤ i → i ≤ j → j ≤ mm.2 →
      Val.lt (rowGet (g j) klast) (rowGet (g i) klast) = false := by
    intro i j h1 hij h2
    have hlo := hinv.lo
    have hhi := hinv.hi
    have hc : ∀ c ∈ ks, rowGet (g i) c = rowGet (g j) c := by
      intro c hc
      rw [hbandcols i h1 (by omega) c hc, ← hbandcols j (by omega) h2 c hc]
    have h0 := hsorted i j (by omega) hij (by omega)
    rw [hpk, cmpRows_strip hc] at h0
    exact cmpRows_head_not_gtb h0
  have hkindcol : ∀ i, mm.1 ≤ i → i ≤ mm.2 →
      (rowGet (g i) klast).kind = vlast.kind := by
    intro i h1 h2
    have hlo := hinv.lo
    have hhi := hinv.hi
    exact hkl i (by omega) (by omega)
  have HB := binSearch_spec g klast vlast mm.1 mm.2 hsortcol hkindcol hinv.lohi
  have hlo := hinv.lo
  have hhi := hinv.hi
  rw [hphase]
  constructor
  · intro row hrow
    have hfnd := HB.1 row hrow
    have hcolseq : ∀ c ∈ pk, rowGet row c = rowGet t c := by
      intro c hc
      rw [hpk] at hc
      rcases List.mem_append.mp hc with hc | hc
      · rw [hfnd.2.2.1]
        exact hbandcols _ hfnd.1 hfnd.2.1 c hc
      · rcases List.mem_singleton.mp hc with rfl
        rw [hfnd.2.2.2, htk]
    exact ⟨by omega, by omega, hfnd.2.2.1, cmpRows_eq_zero_of_eq hcolseq⟩
  · intro hnone
    have hnf := HB.2 hnone
    have hp1 := hnf.1
    have hp2 := hnf.2.1
    refine ⟨by omega, by omega, ?_, ?_⟩
    · intro i h1 h2
      by_cases hcase : i < mm.1
      · exact hinv.leftLt i h1 hcase
      · have hlt := hnf.2.2.1 i (by omega) h2
        have hc : ∀ c ∈ ks, rowGet (g i) c = rowGet t c := by
          intro c hck
          exact hbandcols i (by omega) (by omega) c hck
        rw [hpk, cmpRows_strip hc, cmpRows_head_lt (by rw [htk]; exact hlt)]
        omega
    · intro i h1 h2
      by_cases hcase : mm.2 < i
      · exact hinv.rightLt i hcase h2
      · have hlt := hnf.2.2.2 i h1 (by omega)
        have hc : ∀ c ∈ ks, rowGet t c = rowGet (g i) c := by
          intro c hc
          rw [hbandcols i (by omega) (by omega) c hc]
        rw [hpk, cmpRows_strip hc, cmpRows_head_lt (by rw [htk]; exact hlt)]
        omega

/-! State-level plumbing: connecting `find` and the Ordered Index cache to
the abstract search results. -/

/-- The PK-column values of every listed row have the per-column kind given
by `κ`, none of the kinds being `undefined`. This is the comparability
assumption under which the per-column `<`/`>` comparisons of the source
define a genuine (lexicographic) order. -/
def KindsOK (rows : List Row) (pk : List String) (κ : String → Kind) : Prop :=
  (∀ k ∈ pk, κ k ≠ Kind.undef) ∧
  ∀ r ∈ rows, ∀ k ∈ pk, (rowGet r k).kind = κ k

/-- A valid Ordered Index for a state: a permutation of the store positions,
pairwise sorted by the PK comparator. -/
def SortedPX (s : DS) (pk : List String) (px : List Nat) : Prop :=
  px.Perm (List.range s.rows.length) ∧
  px.Pairwise (fun a b => cmpRows pk (s.rowAt a) (s.rowAt b) ≤ 0)

theorem rowAt_mem {s : DS} {q : Nat} (h : q < s.rows.length) :
    s.rowAt q ∈ s.rows := by
  rw [DS.rowAt, List.getD_eq_getElem s.rows [] h]
  exact List.getElem_mem h

theorem getIndexedRow_eq {s : DS} {px : List Nat} {i : Int} (h0 : 0 ≤ i)
    (h : i.toNat < px.length) :
    s.getIndexedRow px i = s.rowAt (px.get ⟨i.toNat, h⟩) := by
  rw [DS.getIndexedRow, if_pos h0, List.get?_eq_get h]

theorem mem_zip_map {f : String → Val} {pk : List String} {p : String × Val} :
    p ∈ pk.zip (pk.map f) → p.1 ∈ pk ∧ p.2 = f p.1 := by
  induction pk with
  | nil => simp
  | cons k ks ih =>
    intro hp
    rcases List.mem_cons.mp hp with heq | hp
    · rw [heq]
      exact ⟨by simp, rfl⟩
    · obtain ⟨h1, h2⟩ := ih hp
      exact ⟨by simp [h1], h2⟩

/-- Instantiation of the search-loop correctness theorem for the
index-indirected accessor of a state with a valid sorted index `px` and
kind-uniform PK columns: the search for the tuple of a target row `t` either
finds an index position whose underlying store row agrees with `t` on every
PK column, or returns an insertion point and certifies that no stored row
agrees with `t` on every PK column. -/
theorem find_search_spec (s : DS) (pk : List String) (px : List Nat)
    (t : Row) (κ : String → Kind)
    (hne : pk ≠ [])
    (hsx : SortedPX s pk px)
    (hks : KindsOK s.rows pk κ)
    (hkt : ∀ k ∈ pk, (rowGet t k).kind = κ k) :
    (∀ row, (searchPhase (s.getIndexedRow px) pk (pk.map (rowGet t)) 0
        ((s.rows.length : Int) - 1)).dataRow = some row →
      0 ≤ (searchPhase (s.getIndexedRow px) pk (pk.map (rowGet t)) 0
        ((s.rows.length : Int) - 1)).PX_index ∧
      (searchPhase (s.getIndexedRow px) pk (pk.map (rowGet t)) 0
        ((s.rows.length : Int) - 1)).PX_index ≤ (s.rows.length : Int) - 1 ∧
      (∃ q : Nat, q < s.rows.length ∧
        px.get? (searchPhase (s.getIndexedRow px) pk (pk.map (rowGet t)) 0
          ((s.rows.length : Int) - 1)).PX_index.toNat = some q ∧
        row = s.rowAt q) ∧
      ∀ k ∈ pk, rowGet row k = rowGet t k) ∧
    ((searchPhase (s.getIndexedRow px) pk (pk.map (rowGet t)) 0
        ((s.rows.length : Int) - 1)).dataRow = none →
      0 ≤ (searchPhase (s.getIndexedRow px) pk (pk.map (rowGet t)) 0
        ((s.rows.length : Int) - 1)).PX_index ∧
      (searchPhase (s.getIndexedRow px) pk (pk.map (rowGet t)) 0
        ((s.rows.length : Int) - 1)).PX_index ≤ (s.rows.length : Int) ∧
      (∀ i : Int, 0 ≤ i →
        i < (searchPhase (s.getIndexedRow px) pk (pk.map (rowGet t)) 0
          ((s.rows.length : Int) - 1)).PX_index →
        cmpRows pk (s.getIndexedRow px i) t < 0) ∧
      (∀ i : Int, (searchPhase (s.getIndexedRow px) pk (pk.map (rowGet t)) 0
          ((s.rows.length : Int) - 1)).PX_index ≤ i →
        i ≤ (s.rows.length : Int) - 1 →
        cmpRows pk t (s.getIndexedRow px i) < 0) ∧
      ∀ row ∈ s.rows, ¬ ∀ k ∈ pk, rowGet row k = rowGet t k) := by
  obtain ⟨hperm, hpair⟩ := hsx
  have hlen : px.length = s.rows.length := by
    have := hperm.length_eq
    simpa using this
  have hmemb : ∀ a ∈ px, a < s.rows.length := by
    intro a ha
    exact List.mem_range.mp (hperm.mem_iff.mp ha)
  have hg : ∀ i : Int, 0 ≤ i → i ≤ (s.rows.length : Int) - 1 →
      ∃ h : i.toNat < px.length,
        s.getIndexedRow px i = s.rowAt (px.get ⟨i.toNat, h⟩) ∧
        px.get ⟨i.toNat, h⟩ < s.rows.length := by
    intro i h0 h1
    have hi : i.toNat < px.length := by omega
    exact ⟨hi, getIndexedRow_eq h0 hi, hmemb _ (List.get_mem px _ hi)⟩
  have hsorted : ∀ i j : Int, 0 ≤ i → i ≤ j → j ≤ (s.rows.length : Int) - 1 →
      cmpRows pk (s.getIndexedRow px i) (s.getIndexedRow px j) ≤ 0 := by
    intro i j h0 hij h1
    obtain ⟨hi, hgi, _⟩ := hg i h0 (by omega)
    obtain ⟨hj, hgj, _⟩ := hg j (by omega) h1
    rw [hgi, hgj]
    by_cases heq : i = j
    · subst heq
      rw [cmpRows_self]
    · have hij2 : i.toNat < j.toNat := by omega
      exact List.pairwise_iff_get.mp hpair ⟨i.toNat, hi⟩ ⟨j.toNat, hj⟩ hij2
  have ht : ∀ p ∈ pk.zip (pk.map (rowGet t)), rowGet t p.1 = p.2 := by
    intro p hp
    exact (mem_zip_map hp).2.symm
  have hkg : ∀ p ∈ pk.zip (pk.map (rowGet t)), p.2.kind ≠ Kind.undef ∧
      ∀ i : Int, 0 ≤ i → i ≤ (s.rows.length : Int) - 1 →
        (rowGet (s.getIndexedRow px i) p.1).kind = p.2.kind := by
    intro p hp
    obtain ⟨hp1, hp2⟩ := mem_zip_map hp
    constructor
    · rw [hp2, hkt p.1 hp1]
      exact hks.1 p.1 hp1
    · intro i h0 h1
      obtain ⟨hi, hgi, hq⟩ := hg i h0 h1
      rw [hgi, hp2, hkt p.1 hp1]
      exact hks.2 _ (rowAt_mem hq) p.1 hp1
  have hvne : pk.map (rowGet t) ≠ [] := by
    simpa using hne
  have hklen : pk.dropLast.length = (pk.map (rowGet t)).dropLast.length := by
    simp
  have HS := searchPhase_spec (s.getIndexedRow px) t (s.rows.length : Int)
    pk.dropLast (pk.getLast hne)
    (pk.map (rowGet t)).dropLast ((pk.map (rowGet t)).getLast hvne)
    pk (pk.map (rowGet t))
    (List.dropLast_append_getLast hne).symm
    (List.dropLast_append_getLast hvne).symm
    hklen ht hkg hsorted (by positivity)
  constructor
  · intro row hrow
    have hfnd := HS.1 row hrow
    obtain ⟨hi, hgi, hq⟩ := hg _ hfnd.1 hfnd.2.1
    have hcols : ∀ k ∈ pk, rowGet row k = rowGet t k := by
      intro k hk
      have hkk : (rowGet row k).kind = (rowGet t k).kind := by
        rw [hfnd.2.2.1, hgi, hkt k hk]
        exact hks.2 _ (rowAt_mem hq) k hk
      exact cmpRows_cols_eq (fun j hj => by
        have hkk2 : (rowGet row j).kind = (rowGet t j).kind := by
          rw [hfnd.2.2.1, hgi, hkt j hj]
          exact hks.2 _ (rowAt_mem hq) j hj
        exact hkk2) hfnd.2.2.2 k hk
    refine ⟨hfnd.1, hfnd.2.1, ⟨px.get ⟨_, hi⟩, hq, List.get?_eq_get hi, ?_⟩, hcols⟩
    rw [hfnd.2.2.1, hgi]
  · intro hnone
    have hnf := HS.2 hnone
    refine ⟨hnf.1, hnf.2.1, hnf.2.2.1, hnf.2.2.2, ?_⟩
    intro row hrowmem hcols
    obtain ⟨⟨q, hqlen⟩, hget⟩ := List.mem_iff_get.mp hrowmem
    have hqpx : (q : Nat) ∈ px := by
      refine hperm.mem_iff.mpr ?_
      exact List.mem_range.mpr hqlen
    obtain ⟨⟨j, hjlen⟩, hjget⟩ := List.mem_iff_get.mp hqpx
    have h0j : (0 : Int) ≤ (j : Int) := by omega
    have h1j : (j : Int) ≤ (s.rows.length : Int) - 1 := by omega
    obtain ⟨hji, hgj, _⟩ := hg (j : Int) h0j h1j
    have hrowq : s.getIndexedRow px (j : Int) = row := by
      rw [hgj]
      have : px.get ⟨(j : Int).toNat, hji⟩ = q := by
        have htn : ((j : Int).toNat) = j := by omega
        rw [show (⟨(j : Int).toNat, hji⟩ : Fin px.length) = ⟨j, hjlen⟩ from
          Fin.ext htn, hjget]
      rw [this, DS.rowAt, List.getD_eq_getElem s.rows [] hqlen, ← hget]
      rfl
    have hz : cmpRows pk row t = 0 := cmpRows_eq_zero_of_eq hcols
    have hz2 : cmpRows pk t row = 0 := by
      rw [cmpRows_antisymm, hz]
      simp
    by_cases hcase : (j : Int) <
        (searchPhase (s.getIndexedRow px) pk (pk.map (rowGet t)) 0
          ((s.rows.length : Int) - 1)).PX_index
    · have := hnf.2.2.1 (j : Int) h0j hcase
      rw [hrowq, hz] at this
      omega
    · have := hnf.2.2.2 (j : Int) (by omega) h1j
      rw [hrowq, hz2] at this
      omega

theorem jsInsert_pairwise_mem {le : α → α → Bool} {x : α} {l : List α}
    (htot : ∀ a b, a ∈ x :: l → b ∈ x :: l → le a b = true ∨ le b a = true)
    (htrans : ∀ a b c, a ∈ x :: l → b ∈ x :: l → c ∈ x :: l →
      le a b = true → le b c = true → le a c = true)
    (h : l.Pairwise (fun a b => le a b = true)) :
    (jsInsert le x l).Pairwise (fun a b => le a b = true) := by
  induction l with
  | nil => simp [jsInsert]
  | cons y ys ih =>
    rw [List.pairwise_cons] at h
    by_cases hxy : le x y
    · simp only [jsInsert, hxy, if_true]
      refine List.pairwise_cons.mpr ⟨?_, List.pairwise_cons.mpr h⟩
      intro z hz
      rcases List.mem_cons.mp hz with rfl | hz
      · exact hxy
      · exact htrans x y z (by simp) (by simp) (by simp [hz]) hxy (h.1 z hz)
    · simp only [jsInsert, hxy, Bool.false_eq_true, if_false]
      refine List.pairwise_cons.mpr ⟨?_, ?_⟩
      · intro z hz
        rcases mem_jsInsert.mp hz with rfl | hz
        · rcases htot z y (by simp) (by simp) with hc | hc
          · exact absurd hc hxy
          · exact hc
        · exact h.1 z hz
      · have hsub : ∀ a, a ∈ x :: ys → a ∈ x :: y :: ys := by
          intro a ha
          rcases List.mem_cons.mp ha with rfl | ha
          · simp
          · simp [ha]
        exact ih (fun a b ha hb => htot a b (hsub a ha) (hsub b hb))
          (fun a b c ha hb hc =>
            htrans a b c (hsub a ha) (hsub b hb) (hsub c hc)) h.2

theorem jsSort_pairwise_mem {le : α → α → Bool} {l : List α}
    (htot : ∀ a b, a ∈ l → b ∈ l → le a b = true ∨ le b a = true)
    (htrans : ∀ a b c, a ∈ l → b ∈ l → c ∈ l →
      le a b = true → le b c = true → le a c = true) :
    (jsSort le l).Pairwise (fun a b => le a b = true) := by
  induction l with
  | nil => simp [jsSort]
  | cons x xs ih =>
    have hsub : ∀ a, a ∈ x :: jsSort le xs → a ∈ x :: xs := by
      intro a ha
      rcases List.mem_cons.mp ha with rfl | ha
      · simp
      · exact List.mem_cons.mpr (Or.inr ((jsSort_perm le xs).mem_iff.mp ha))
    refine jsInsert_pairwise_mem ?_ ?_
      (ih (fun a b ha hb => htot a b (by simp [ha]) (by simp [hb]))
        (fun a b c ha hb hc =>
          htrans a b c (by simp [ha]) (by simp [hb]) (by simp [hc])))
    · intro a b ha hb
      exact htot a b (hsub a ha) (hsub b hb)
    · intro a b c ha hb hc
      exact htrans a b c (hsub a ha) (hsub b hb) (hsub c hc)

/-! Correctness of the `derivePX` rebuild. -/

theorem rebuildPX_perm (s : DS) (pk : List String) :
    (rebuildPX s pk).Perm (List.range s.rows.length) :=
  jsSort_perm _ _

/-- Unconditionally (whatever the cell values), the rebuilt index satisfies
the adjacent-pair ascending invariant, because the comparator is always
antisymmetric (hence the comparison test is total). -/
theorem rebuildPX_chain (s : DS) (pk : List String) :
    (rebuildPX s pk).Chain' (fun a b => comparator s pk a b ≤ 0) := by
  have h := @jsSort_chain' Nat (fun a b => decide (comparator s pk a b ≤ 0))
    (fun a b => by
      rcases cmpRows_total pk (s.rowAt a) (s.rowAt b) with h | h
      · exact Or.inl (by simpa [comparator] using h)
      · exact Or.inr (by simpa [comparator] using h))
    (List.range s.rows.length)
  exact List.Chain'.imp (fun a b hab => of_decide_eq_true hab) h

/-- Under per-column kind uniformity the comparator is a total preorder on
the store rows, so the rebuilt index is fully pairwise sorted: a valid
Ordered Index. -/
theorem rebuildPX_sorted (s : DS) (pk : List String) (κ : String → Kind)
    (hks : KindsOK s.rows pk κ) : SortedPX s pk (rebuildPX s pk) := by
  refine ⟨rebuildPX_perm s pk, ?_⟩
  have h := @jsSort_pairwise_mem Nat
    (fun a b => decide (comparator s pk a b ≤ 0))
    (List.range s.rows.length)
    (fun a b _ _ => by
      rcases cmpRows_total pk (s.rowAt a) (s.rowAt b) with h | h
      · exact Or.inl (by simpa [comparator] using h)
      · exact Or.inr (by simpa [comparator] using h))
    (fun a b c ha hb hc h1 h2 => by
      have hka : s.rowAt a ∈ s.rows := rowAt_mem (List.mem_range.mp ha)
      have hkb : s.rowAt b ∈ s.rows := rowAt_mem (List.mem_range.mp hb)
      have hkc : s.rowAt c ∈ s.rows := rowAt_mem (List.mem_range.mp hc)
      have := @cmpRows_le_trans pk (s.rowAt a) (s.rowAt b) (s.rowAt c)
        (fun k hk => by rw [hks.2 _ hka k hk, hks.2 _ hkb k hk])
        (fun k hk => by rw [hks.2 _ hkb k hk, hks.2 _ hkc k hk])
        (by simpa [comparator] using h1) (by simpa [comparator] using h2)
      simpa [comparator] using this)
  exact (h.imp (fun hab => by simpa [comparator] using hab))

/-! Resolution lemmas for `find`: with a non-empty configured PK and default
options, the state after `find` is exactly the input state with the index
cache resolved (reused when non-empty, else rebuilt). -/

theorem find_resolved_cached (rows : List Row) (ld : Bool) (pk : List String)
    (px : List Nat) (sarg : Sarg) (o : Options)
    (hne : pk ≠ []) (hpxne : px ≠ [])
    (ho1 : o.presorted = false) (ho2 : o.reindex = false) :
    find ⟨rows, ld, some pk, some px⟩ sarg o =
      ((match normalizeSarg pk sarg with
       | .error e => .error e
       | .ok vals =>
         if vals.length ≠ pk.length then .error .notFullyQualified
         else .ok (searchPhase
           (DS.getIndexedRow ⟨rows, ld, some pk, some px⟩ px) pk vals 0
           ((rows.length : Int) - 1))),
       ⟨rows, ld, some pk, some px⟩) := by
  have hlen0 : pk.length ≠ 0 := fun h => hne (List.length_eq_zero.mp h)
  have hpxlen : px.length ≠ 0 := fun h => hpxne (List.length_eq_zero.mp h)
  rw [find]
  simp only [derivePK, derivePX, ho1, ho2, if_pos hlen0, if_pos hpxlen,
    Bool.false_eq_true, if_false]
  cases hns : normalizeSarg pk sarg with
  | error e => rfl
  | ok vals =>
    dsimp only
    by_cases hl : vals.length ≠ pk.length
    · rw [if_pos hl, if_pos hl]
    · rw [if_neg hl, if_neg hl]
      simp [DS.accessor, DS.getRowCount]

theorem find_resolved_fresh (rows : List Row) (ld : Bool) (pk : List String)
    (sarg : Sarg) (o : Options)
    (hne : pk ≠ [])
    (ho1 : o.presorted = false) (ho2 : o.reindex = false) :
    find ⟨rows, ld, some pk, none⟩ sarg o =
      ((match normalizeSarg pk sarg with
       | .error e => .error e
       | .ok vals =>
         if vals.length ≠ pk.length then .error .notFullyQualified
         else .ok (searchPhase
           (DS.getIndexedRow ⟨rows, ld, some pk, none⟩
             (rebuildPX ⟨rows, ld, some pk, none⟩ pk)) pk vals 0
           ((rows.length : Int) - 1))),
       ⟨rows, ld, some pk,
         some (rebuildPX ⟨rows, ld, some pk, none⟩ pk)⟩) := by
  have hlen0 : pk.length ≠ 0 := fun h => hne (List.length_eq_zero.mp h)
  rw [find]
  simp only [derivePK, derivePX, ho1, ho2, if_pos hlen0,
    Bool.false_eq_true, if_false]
  cases hns : normalizeSarg pk sarg with
  | error e => rfl
  | ok vals =>
    dsimp only
    by_cases hl : vals.length ≠ pk.length
    · rw [if_pos hl, if_pos hl]
    · rw [if_neg hl, if_neg hl]
      simp only [DS.accessor, DS.getRowCount]
      rfl

/-! Splice lemmas. -/

theorem spliceIn_length (l : List α) (i : Nat) (x : α) :
    (spliceIn l i x).length = l.length + 1 := by
  simp [spliceIn]
  omega

theorem spliceIn_perm {px : List Nat} {n : Nat}
    (hperm : px.Perm (List.range n)) (i : Nat) :
    (spliceIn px i n).Perm (List.range (n + 1)) := by
  have h1 : (spliceIn px i n).Perm (n :: px) := by
    have := @List.perm_middle _ n (px.take i) (px.drop i)
    rw [List.take_append_drop] at this
    exact this
  have h2 : (List.range (n + 1)).Perm (n :: List.range n) := by
    rw [List.range_succ]
    exact @List.perm_middle _ n (List.range n) [] |>.trans
      (by simp)
  exact h1.trans ((hperm.cons n).trans h2.symm)

theorem mem_take_get {l : List α} {m : Nat} {a : α} (h : a ∈ l.take m) :
    ∃ j, ∃ hj : j < l.length, j < m ∧ l.get ⟨j, hj⟩ = a := by
  obtain ⟨⟨j, hjl⟩, hget⟩ := List.mem_iff_get.mp h
  have hjlen : j < l.length := by
    have := hjl
    simp at this
    omega
  have hjm : j < m := by
    have := hjl
    simp at this
    omega
  refine ⟨j, hjlen, hjm, ?_⟩
  rw [← hget]
  simp [List.get_eq_getElem, List.getElem_take]

theorem mem_drop_get {l : List α} {m : Nat} {a : α} (h : a ∈ l.drop m) :
    ∃ j, ∃ hj : j < l.length, m ≤ j ∧ l.get ⟨j, hj⟩ = a := by
  obtain ⟨⟨j, hjl⟩, hget⟩ := List.mem_iff_get.mp h
  have hjlen : m + j < l.length := by
    have := hjl
    simp at this
    omega
  refine ⟨m + j, hjlen, by omega, ?_⟩
  rw [← hget]
  simp [List.get_eq_getElem, List.getElem_drop]

theorem spliceIn_pairwise {R : Nat → Nat → Prop} {px : List Nat} {i : Nat}
    {x : Nat} (hpx : px.Pairwise R)
    (hbefore : ∀ a ∈ px.take i, R a x)
    (hafter : ∀ b ∈ px.drop i, R x b) :
    (spliceIn px i x).Pairwise R := by
  have hsplit : px.Pairwise R := hpx
  rw [show px = px.take i ++ px.drop i from (List.take_append_drop i px).symm]
    at hsplit
  rw [List.pairwise_append] at hsplit
  rw [spliceIn, List.pairwise_append]
  refine ⟨hsplit.1, ?_, ?_⟩
  · rw [List.pairwise_cons]
    exact ⟨hafter, hsplit.2.1⟩
  · intro a ha b hb
    rcases List.mem_cons.mp hb with rfl | hb
    · exact hbefore a ha
    · exact hsplit.2.2 a ha b hb

theorem mapSargVals_ok {r : Row} {pk : List String}
    (h : ∀ k ∈ pk, rowHas r k = true) :
    mapSargVals r pk = .ok (pk.map (rowGet r)) := by
  induction pk with
  | nil => rfl
  | cons k ks ih =>
    rw [mapSargVals, if_pos (h k (by simp)),
      ih (fun j hj => h j (by simp [hj]))]
    rfl

theorem mapSargVals_length {r : Row} {pk : List String} {vs : List Val}
    (h : mapSargVals r pk = .ok vs) : vs.length = pk.length := by
  induction pk generalizing vs with
  | nil =>
    rw [mapSargVals] at h
    cases h
    rfl
  | cons k ks ih =>
    rw [mapSargVals] at h
    by_cases hk : rowHas r k
    · rw [if_pos hk] at h
      cases hrec : mapSargVals r ks with
      | ok vs2 =>
        rw [hrec] at h
        cases h
        simp [ih hrec]
      | error e =>
        rw [hrec] at h
        cases h
    · rw [if_neg hk] at h
      cases h

theorem mapSargVals_error {r : Row} {pk : List String} {e : Err}
    (h : mapSargVals r pk = .error e) : ∃ k, e = .missingKeyColumn k := by
  induction pk with
  | nil =>
    rw [mapSargVals] at h
    cases h
  | cons k ks ih =>
    rw [mapSargVals] at h
    by_cases hk : rowHas r k
    · rw [if_pos hk] at h
      cases hrec : mapSargVals r ks with
      | ok vs2 =>
        rw [hrec] at h
        cases h
      | error e2 =>
        rw [hrec] at h
        cases h
        exact ih hrec
    · rw [if_neg hk] at h
      cases h
      exact ⟨k, rfl⟩

theorem rowAt_append_left {s2 s : DS} {r : Row}
    (h : s2.rows = s.rows ++ [r]) {a : Nat} (ha : a < s.rows.length) :
    s2.rowAt a = s.rowAt a := by
  rw [DS.rowAt, DS.rowAt, h, List.getD_append _ _ _ _ ha]

theorem rowAt_append_last {s2 s : DS} {r : Row}
    (h : s2.rows = s.rows ++ [r]) :
    s2.rowAt s.rows.length = r := by
  rw [DS.rowAt, h, List.getD_eq_getElem _ _ (by simp)]
  rw [List.getElem_concat_length]
  rfl

/-- Splicing the position of a just-appended row at its insertion point
keeps the index a valid sorted permutation over the extended store. -/
theorem insert_splice_sorted (s s2 : DS) (pk : List String) (px : List Nat)
    (r : Row) (p : Int)
    (hrows2 : s2.rows = s.rows ++ [r])
    (hsx : SortedPX s pk px)
    (hp0 : 0 ≤ p) (_hpn : p ≤ (s.rows.length : Int))
    (hleft : ∀ i : Int, 0 ≤ i → i < p →
      cmpRows pk (s.getIndexedRow px i) r < 0)
    (hright : ∀ i : Int, p ≤ i → i ≤ (s.rows.length : Int) - 1 →
      cmpRows pk r (s.getIndexedRow px i) < 0) :
    SortedPX s2 pk (spliceIn px p.toNat s.rows.length) := by
  obtain ⟨hperm, hpair⟩ := hsx
  have hlen : px.length = s.rows.length := by
    have := hperm.length_eq
    simpa using this
  have hmemb : ∀ a ∈ px, a < s.rows.length := by
    intro a ha
    exact List.mem_range.mp (hperm.mem_iff.mp ha)
  constructor
  · have := spliceIn_perm hperm p.toNat
    rw [hrows2]
    simpa using this
  · have hpair2 : px.Pairwise
        (fun a b => cmpRows pk (s2.rowAt a) (s2.rowAt b) ≤ 0) := by
      refine List.Pairwise.imp_of_mem ?_ hpair
      intro a b ha hb hr
      rw [rowAt_append_left hrows2 (hmemb a ha),
        rowAt_append_left hrows2 (hmemb b hb)]
      exact hr
    refine spliceIn_pairwise hpair2 ?_ ?_
    · intro a ha
      obtain ⟨j, hj, hjlt, hjget⟩ := mem_take_get ha
      have hj0 : (0 : Int) ≤ (j : Int) := by omega
      have hjp : (j : Int) < p := by omega
      have hlt := hleft (j : Int) hj0 hjp
      have hji : ((j : Int)).toNat < px.length := by omega
      rw [getIndexedRow_eq hj0 hji] at hlt
      have hgetj : px.get ⟨((j : Int)).toNat, hji⟩ = a := by
        rw [show (⟨((j : Int)).toNat, hji⟩ : Fin px.length) = ⟨j, hj⟩ from
          Fin.ext (show ((j : Int)).toNat = j by omega), hjget]
      rw [hgetj] at hlt
      rw [rowAt_append_left hrows2 (hmemb a (hjget ▸ List.get_mem px j hj)),
        rowAt_append_last hrows2]
      omega
    · intro b hb
      obtain ⟨j, hj, hjge, hjget⟩ := mem_drop_get hb
      have hj0 : (0 : Int) ≤ (j : Int) := by omega
      have hjp : p ≤ (j : Int) := by omega
      have hjn : (j : Int) ≤ (s.rows.length : Int) - 1 := by omega
      have hlt := hright (j : Int) hjp hjn
      have hji : ((j : Int)).toNat < px.length := by omega
      rw [getIndexedRow_eq hj0 hji] at hlt
      have hgetj : px.get ⟨((j : Int)).toNat, hji⟩ = b := by
        rw [show (⟨((j : Int)).toNat, hji⟩ : Fin px.length) = ⟨j, hj⟩ from
          Fin.ext (show ((j : Int)).toNat = j by omega), hjget]
      rw [hgetj] at hlt
      rw [rowAt_append_left hrows2 (hmemb b (hjget ▸ List.get_mem px j hj)),
        rowAt_append_last hrows2]
      omega

/-- A successful, delegate-handled `insertRow` into a state with a valid
cached index: the result is `true`, the row is appended to the store, and
the index entry spliced in at the computed insertion point leaves the index
a valid sorted permutation of the extended store positions. -/
theorem insertRow_sorted_cached (rows : List Row) (ld : Bool)
    (pk : List String) (px : List Nat) (r : Row) (κ : String → Kind)
    (o : Options)
    (hne : pk ≠ []) (hpxne : px ≠ [])
    (ho1 : o.presorted = false) (ho2 : o.reindex = false)
    (hsx : SortedPX ⟨rows, ld, some pk, some px⟩ pk px)
    (hks : KindsOK (rows ++ [r]) pk κ)
    (hkeys : ∀ k ∈ pk, rowHas r k = true)
    (hnodup : ∀ row ∈ rows, ¬ ∀ k ∈ pk, rowGet row k = rowGet r k) :
    (insertRow ⟨rows, ld, some pk, some px⟩ r o true).result = .ok true ∧
    ∃ p : Int, 0 ≤ p ∧ p ≤ (rows.length : Int) ∧
      (insertRow ⟨rows, ld, some pk, some px⟩ r o true).state =
        ⟨rows ++ [r], ld, some pk, some (spliceIn px p.toNat rows.length)⟩ ∧
      SortedPX
        ⟨rows ++ [r], ld, some pk, some (spliceIn px p.toNat rows.length)⟩
        pk (spliceIn px p.toNat rows.length) := by
  have hre := find_resolved_cached rows ld pk px (.obj r) o hne hpxne ho1 ho2
  have hnorm : normalizeSarg pk (.obj r) = .ok (pk.map (rowGet r)) := by
    rw [normalizeSarg]
    exact mapSargVals_ok hkeys
  rw [hnorm] at hre
  dsimp only at hre
  have hlen : ¬ (pk.map (rowGet r)).length ≠ pk.length := by simp
  rw [if_neg hlen] at hre
  have hksrows : KindsOK rows pk κ :=
    ⟨hks.1, fun row hrow => hks.2 row (List.mem_append.mpr (Or.inl hrow))⟩
  have hkt : ∀ k ∈ pk, (rowGet r k).kind = κ k :=
    hks.2 r (List.mem_append.mpr (Or.inr (by simp)))
  have FS := find_search_spec ⟨rows, ld, some pk, some px⟩ pk px r κ hne hsx
    hksrows hkt
  dsimp only at FS
  cases hdr : (searchPhase
      (DS.getIndexedRow ⟨rows, ld, some pk, some px⟩ px) pk
      (pk.map (rowGet r)) 0 ((rows.length : Int) - 1)).dataRow with
  | some row =>
    exfalso
    have hfnd := FS.1 row hdr
    obtain ⟨q, hq, _, hrowq⟩ := hfnd.2.2.1
    exact hnodup row (hrowq ▸ rowAt_mem hq) hfnd.2.2.2
  | none =>
    have hnf := FS.2 hdr
    have hout : insertRow ⟨rows, ld, some pk, some px⟩ r o true =
        ⟨.ok true,
          ⟨rows ++ [r], ld, some pk,
            some (spliceIn px (searchPhase
              (DS.getIndexedRow ⟨rows, ld, some pk, some px⟩ px) pk
              (pk.map (rowGet r)) 0
              ((rows.length : Int) - 1)).PX_index.toNat rows.length)⟩,
          true⟩ := by
      unfold insertRow
      rw [hre]
      dsimp only
      rw [hdr]
      simp
    rw [hout]
    refine ⟨rfl, (searchPhase
        (DS.getIndexedRow ⟨rows, ld, some pk, some px⟩ px) pk
        (pk.map (rowGet r)) 0
        ((rows.length : Int) - 1)).PX_index, hnf.1, hnf.2.1, rfl, ?_⟩
    exact insert_splice_sorted ⟨rows, ld, some pk, some px⟩
      ⟨rows ++ [r], ld, some pk,
        some (spliceIn px (searchPhase
          (DS.getIndexedRow ⟨rows, ld, some pk, some px⟩ px) pk
          (pk.map (rowGet r)) 0
          ((rows.length : Int) - 1)).PX_index.toNat rows.length)⟩
      pk px r _ rfl hsx hnf.1 hnf.2.1 hnf.2.2.1 hnf.2.2.2.1

/-- A successful, delegate-handled `insertRow` into a state with no cached
index: `find` rebuilds the index, and the splice leaves a valid sorted
permutation over the extended store. -/
theorem insertRow_sorted_fresh (rows : List Row) (ld : Bool)
    (pk : List String) (r : Row) (κ : String → Kind) (o : Options)
    (hne : pk ≠ [])
    (ho1 : o.presorted = false) (ho2 : o.reindex = false)
    (hks : KindsOK (rows ++ [r]) pk κ)
    (hkeys : ∀ k ∈ pk, rowHas r k = true)
    (hnodup : ∀ row ∈ rows, ¬ ∀ k ∈ pk, rowGet row k = rowGet r k) :
    (insertRow ⟨rows, ld, some pk, none⟩ r o true).result = .ok true ∧
    ∃ p : Int, 0 ≤ p ∧ p ≤ (rows.length : Int) ∧
      (insertRow ⟨rows, ld, some pk, none⟩ r o true).state =
        ⟨rows ++ [r], ld, some pk,
          some (spliceIn (rebuildPX ⟨rows, ld, some pk, none⟩ pk)
            p.toNat rows.length)⟩ ∧
      SortedPX
        ⟨rows ++ [r], ld, some pk,
          some (spliceIn (rebuildPX ⟨rows, ld, some pk, none⟩ pk)
            p.toNat rows.length)⟩
        pk (spliceIn (rebuildPX ⟨rows, ld, some pk, none⟩ pk)
          p.toNat rows.length) := by
  have hre := find_resolved_fresh rows ld pk (.obj r) o hne ho1 ho2
  have hnorm : normalizeSarg pk (.obj r) = .ok (pk.map (rowGet r)) := by
    rw [normalizeSarg]
    exact mapSargVals_ok hkeys
  rw [hnorm] at hre
  dsimp only at hre
  have hlen : ¬ (pk.map (rowGet r)).length ≠ pk.length := by simp
  rw [if_neg hlen] at hre
  have hksrows : KindsOK rows pk κ :=
    ⟨hks.1, fun row hrow => hks.2 row (List.mem_append.mpr (Or.inl hrow))⟩
  have hkt : ∀ k ∈ pk, (rowGet r k).kind = κ k :=
    hks.2 r (List.mem_append.mpr (Or.inr (by simp)))
  have hsx : SortedPX ⟨rows, ld, some pk, none⟩ pk
      (rebuildPX ⟨rows, ld, some pk, none⟩ pk) :=
    rebuildPX_sorted ⟨rows, ld, some pk, none⟩ pk κ hksrows
  have FS := find_search_spec ⟨rows, ld, some pk, none⟩ pk
    (rebuildPX ⟨rows, ld, some pk, none⟩ pk) r κ hne hsx hksrows hkt
  dsimp only at FS
  cases hdr : (searchPhase
      (DS.getIndexedRow ⟨rows, ld, some pk, none⟩
        (rebuildPX ⟨rows, ld, some pk, none⟩ pk)) pk
      (pk.map (rowGet r)) 0 ((rows.length : Int) - 1)).dataRow with
  | some row =>
    exfalso
    have hfnd := FS.1 row hdr
    obtain ⟨q, hq, _, hrowq⟩ := hfnd.2.2.1
    exact hnodup row (hrowq ▸ rowAt_mem hq) hfnd.2.2.2
  | none =>
    have hnf := FS.2 hdr
    have hout : insertRow ⟨rows, ld, some pk, none⟩ r o true =
        ⟨.ok true,
          ⟨rows ++ [r], ld, some pk,
            some (spliceIn (rebuildPX ⟨rows, ld, some pk, none⟩ pk)
              (searchPhase
                (DS.getIndexedRow ⟨rows, ld, some pk, none⟩
                  (rebuildPX ⟨rows, ld, some pk, none⟩ pk)) pk
                (pk.map (rowGet r)) 0
                ((rows.length : Int) - 1)).PX_index.toNat rows.length)⟩,
          true⟩ := by
      unfold insertRow
      rw [hre]
      dsimp only
      rw [hdr]
      simp
    rw [hout]
    refine ⟨rfl, (searchPhase
        (DS.getIndexedRow ⟨rows, ld, some pk, none⟩
          (rebuildPX ⟨rows, ld, some pk, none⟩ pk)) pk
        (pk.map (rowGet r)) 0
        ((rows.length : Int) - 1)).PX_index, hnf.1, hnf.2.1, rfl, ?_⟩
    exact insert_splice_sorted ⟨rows, ld, some pk, none⟩
      ⟨rows ++ [r], ld, some pk,
        some (spliceIn (rebuildPX ⟨rows, ld, some pk, none⟩ pk)
          (searchPhase
            (DS.getIndexedRow ⟨rows, ld, some pk, none⟩
              (rebuildPX ⟨rows, ld, some pk, none⟩ pk)) pk
            (pk.map (rowGet r)) 0
            ((rows.length : Int) - 1)).PX_index.toNat rows.length)⟩
      pk (rebuildPX ⟨rows, ld, some pk, none⟩ pk) r _ rfl hsx
      hnf.1 hnf.2.1 hnf.2.2.1 hnf.2.2.2.1

/-- `findRow` on a state with a valid cached index returns the unique
stored row that agrees with the target on every PK column. -/
theorem findRow_found_cached (rows : List Row) (ld : Bool)
    (pk : List String) (px : List Nat) (r : Row) (κ : String → Kind)
    (o : Options)
    (hne : pk ≠ []) (hpxne : px ≠ [])
    (ho1 : o.presorted = false) (ho2 : o.reindex = false)
    (hsx : SortedPX ⟨rows, ld, some pk, some px⟩ pk px)
    (hks : KindsOK rows pk κ)
    (hkt : ∀ k ∈ pk, (rowGet r k).kind = κ k)
    (hkeys : ∀ k ∈ pk, rowHas r k = true)
    (hmem : r ∈ rows)
    (huniq : ∀ row ∈ rows, (∀ k ∈ pk, rowGet row k = rowGet r k) → row = r) :
    findRow ⟨rows, ld, some pk, some px⟩ (.obj r) o =
      (.ok (some r), ⟨rows, ld, some pk, some px⟩) := by
  have hre := find_resolved_cached rows ld pk px (.obj r) o hne hpxne ho1 ho2
  have hnorm : normalizeSarg pk (.obj r) = .ok (pk.map (rowGet r)) := by
    rw [normalizeSarg]
    exact mapSargVals_ok hkeys
  rw [hnorm] at hre
  dsimp only at hre
  have hlen : ¬ (pk.map (rowGet r)).length ≠ pk.length := by simp
  rw [if_neg hlen] at hre
  have FS := find_search_spec ⟨rows, ld, some pk, some px⟩ pk px r κ hne hsx
    hks hkt
  dsimp only at FS
  cases hdr : (searchPhase
      (DS.getIndexedRow ⟨rows, ld, some pk, some px⟩ px) pk
      (pk.map (rowGet r)) 0 ((rows.length : Int) - 1)).dataRow with
  | some row =>
    have hfnd := FS.1 row hdr
    obtain ⟨q, hq, _, hrowq⟩ := hfnd.2.2.1
    have hrr : row = r := huniq row (hrowq ▸ rowAt_mem hq) hfnd.2.2.2
    rw [findRow, hre]
    dsimp only
    rw [hdr, hrr]
  | none =>
    exfalso
    have hnf := FS.2 hdr
    exact hnf.2.2.2.2 r hmem (fun k _ => rfl)

theorem derivePKFrom_error {s : DS} {sarg : Sarg} {e : Err}
    (h : derivePKFrom s sarg = .error e) : e = .cannotDerivePK := by
  cases sarg with
  | obj r =>
    rw [derivePKFrom] at h
    cases h
  | scalar v =>
    rw [derivePKFrom] at h
    injection h with h2
    exact h2.symm

theorem derivePK_error_eq {s : DS} {sarg : Sarg} {e : Err}
    (h : derivePK s sarg = .error e) : e = .cannotDerivePK := by
  obtain ⟨rows, ld, sPK, sPX⟩ := s
  rw [derivePK] at h
  dsimp only at h
  cases sPK with
  | none => exact derivePKFrom_error h
  | some pk =>
    dsimp only at h
    by_cases hl : pk.length ≠ 0
    · rw [if_pos hl] at h
      cases h
    · rw [if_neg hl] at h
      exact derivePKFrom_error h

theorem normalizeSarg_error {pk : List String} {sarg : Sarg} {e : Err}
    (h : normalizeSarg pk sarg = .error e) :
    e = .multiColumnScalar ∨ ∃ k, e = .missingKeyColumn k := by
  cases sarg with
  | obj r =>
    rw [normalizeSarg] at h
    exact Or.inr (mapSargVals_error h)
  | scalar v =>
    rw [normalizeSarg] at h
    by_cases hl : pk.length = 1
    · rw [if_pos hl] at h
      cases h
    · rw [if_neg hl] at h
      injection h with h2
      exact Or.inl h2.symm

theorem normalizeSarg_ok_length {pk : List String} {sarg : Sarg}
    {vals : List Val} (h : normalizeSarg pk sarg = .ok vals) :
    vals.length = pk.length := by
  cases sarg with
  | obj r =>
    rw [normalizeSarg] at h
    exact mapSargVals_length h
  | scalar v =>
    rw [normalizeSarg] at h
    by_cases hl : pk.length = 1
    · rw [if_pos hl] at h
      injection h with h2
      rw [← h2, hl]
      rfl
    · rw [if_neg hl] at h
      cases h

/-- C9: the `IncompleteSearchArgument` branch of `find` is unreachable: any
call that passes primary-key resolution and search-argument normalization
reaches the length check with a tuple whose length equals the PK length
(object arguments are mapped over the PK columns, scalars are wrapped only
for a single-column PK), so `find` can never return the
"Expected fully qualified search arg." error. -/
theorem C9_incomplete_unreachable (s : DS) (sarg : Sarg) (o : Options) :
    (find s sarg o).1 ≠ Except.error Err.notFullyQualified := by
  rw [find]
  cases hd : derivePK s sarg with
  | error e =>
    have he := derivePK_error_eq hd
    subst he
    simp
  | ok pk =>
    dsimp only
    cases hn : normalizeSarg pk sarg with
    | error e =>
      rcases normalizeSarg_error hn with he | ⟨k, he⟩ <;> subst he <;> simp
    | ok vals =>
      have hlen := normalizeSarg_ok_length hn
      dsimp only
      rw [if_neg (by omega)]
      simp

/-- C2 (failing input of the spec scenario): for rows
`[{id:3,name:"c"},{id:1,name:"a"},{id:2,name:"b"}]` with PK `["id"]`, the
call `findRowIndex(4)` does not return the insertion position 3: `find`
computes index-space insertion point 3, but `findRowIndex` dereferences it
through the 3-entry index (`this.PX[3]`), yielding JS `undefined` (modelled
as `none`). -/
theorem C2_findRowIndex_scenario :
    (findRowIndex
      ⟨[[("id", Val.int 3), ("name", Val.str "c")],
        [("id", Val.int 1), ("name", Val.str "a")],
        [("id", Val.int 2), ("name", Val.str "b")]],
       true, some ["id"], none⟩
      (.scalar (Val.int 4)) ⟨false, false⟩).1 = .ok none := by
  rfl

/-- C6 (failing input): a `deleteRow` that matches a row under
`options.presorted` evaluates `this.PX[...]` with `this.PX` deleted, which
raises a TypeError instead of passing the found position directly to the
delete request. -/
theorem C6_presorted_delete_throws :
    (deleteRow ⟨[[("id", Val.int 1)]], true, some ["id"], none⟩
      (.scalar (Val.int 1)) ⟨true, false⟩ true).result =
      .error Err.typeError := by
  rfl

/-! Claim C10: effect of `options.presorted` on the cached index. -/

/-- With a non-empty configured PK, `find` under `options.presorted` deletes
the cached Ordered Index whatever else happens: PK resolution succeeds, the
deletion runs before normalization can throw, and every later branch keeps
the state it produced. -/
theorem find_presorted_clears (rows : List Row) (ld : Bool)
    (pk : List String) (px : Option (List Nat)) (sarg : Sarg) (o : Options)
    (hne : pk ≠ []) (ho : o.presorted = true) :
    (find ⟨rows, ld, some pk, px⟩ sarg o).2.PX = none := by
  have hlen0 : pk.length ≠ 0 := fun h => hne (List.length_eq_zero.mp h)
  have hdp : derivePK ⟨rows, ld, some pk, px⟩ sarg = .ok pk := by
    rw [derivePK]
    dsimp only
    rw [if_pos hlen0]
  rw [find, hdp]
  dsimp only
  rw [ho]
  simp only [if_true]
  cases hns : normalizeSarg pk sarg with
  | error e => rfl
  | ok vals =>
    dsimp only
    by_cases hl : vals.length ≠ pk.length
    · rw [if_pos hl]
    · rw [if_neg hl]

/-- C10 (amended): when the primary key resolves (here: a non-empty
configured PK), every search or mutation operation called with
`options.presorted` leaves the instance without a cached Ordered Index, so
the next non-presorted operation cannot reuse a stale cache. The original
claim's "always" fails: a `cannotDerivePK` throw precedes the deletion
(see the counterexample). -/
theorem C10_presorted_clears_index (rows : List Row) (ld : Bool)
    (pk : List String) (px : Option (List Nat)) (sarg : Sarg) (r : Row)
    (handled : Bool) (o : Options)
    (hne : pk ≠ []) (ho : o.presorted = true) :
    (find ⟨rows, ld, some pk, px⟩ sarg o).2.PX = none ∧
    (findRow ⟨rows, ld, some pk, px⟩ sarg o).2.PX = none ∧
    (findRowIndex ⟨rows, ld, some pk, px⟩ sarg o).2.PX = none ∧
    (insertRow ⟨rows, ld, some pk, px⟩ r o handled).state.PX = none ∧
    (deleteRow ⟨rows, ld, some pk, px⟩ sarg o handled).state.PX = none := by
  refine ⟨find_presorted_clears rows ld pk px sarg o hne ho, ?_, ?_, ?_, ?_⟩
  · rw [findRow]
    cases hf : find ⟨rows, ld, some pk, px⟩ sarg o with
    | mk e1 s1 =>
      have h1 : s1.PX = none := by
        have h2 := find_presorted_clears rows ld pk px sarg o hne ho
        rw [hf] at h2
        exact h2
      obtain ⟨r1, l1, k1, x1⟩ := s1
      dsimp only at h1
      subst h1
      cases e1 <;> rfl
  · rw [findRowIndex]
    cases hf : find ⟨rows, ld, some pk, px⟩ sarg o with
    | mk e1 s1 =>
      have h1 : s1.PX = none := by
        have h2 := find_presorted_clears rows ld pk px sarg o hne ho
        rw [hf] at h2
        exact h2
      obtain ⟨r1, l1, k1, x1⟩ := s1
      dsimp only at h1
      subst h1
      cases e1 <;> rfl
  · rw [insertRow]
    cases hf : find ⟨rows, ld, some pk, px⟩ (.obj r) o with
    | mk e1 s1 =>
      have h1 : s1.PX = none := by
        have h2 := find_presorted_clears rows ld pk px (.obj r) o hne ho
        rw [hf] at h2
        exact h2
      obtain ⟨r1, l1, k1, x1⟩ := s1
      dsimp only at h1
      subst h1
      cases e1 with
      | error e => rfl
      | ok res =>
        obtain ⟨pi, dr⟩ := res
        cases dr <;> cases handled <;> rfl
  · rw [deleteRow]
    cases hf : find ⟨rows, ld, some pk, px⟩ sarg o with
    | mk e1 s1 =>
      have h1 : s1.PX = none := by
        have h2 := find_presorted_clears rows ld pk px sarg o hne ho
        rw [hf] at h2
        exact h2
      obtain ⟨r1, l1, k1, x1⟩ := s1
      dsimp only at h1
      subst h1
      cases e1 with
      | error e => rfl
      | ok res =>
        obtain ⟨pi, dr⟩ := res
        cases dr <;> cases handled <;> rfl

/-- C10 (witness). -/
theorem C10_presorted_clears_index_witness :
    (find ⟨[[("id", Val.int 1)]], true, some ["id"], some [0]⟩
      (.scalar (Val.int 1)) ⟨true, false⟩).2.PX = none ∧
    (findRow ⟨[[("id", Val.int 1)]], true, some ["id"], some [0]⟩
      (.scalar (Val.int 1)) ⟨true, false⟩).2.PX = none ∧
    (findRowIndex ⟨[[("id", Val.int 1)]], true, some ["id"], some [0]⟩
      (.scalar (Val.int 1)) ⟨true, false⟩).2.PX = none ∧
    (insertRow ⟨[[("id", Val.int 1)]], true, some ["id"], some [0]⟩
      [("id", Val.int 2)] ⟨true, false⟩ true).state.PX = none ∧
    (deleteRow ⟨[[("id", Val.int 1)]], true, some ["id"], some [0]⟩
      (.scalar (Val.int 1)) ⟨true, false⟩ true).state.PX = none :=
  C10_presorted_clears_index [[("id", Val.int 1)]] true ["id"] (some [0])
    (.scalar (Val.int 1)) [("id", Val.int 2)] true ⟨true, false⟩
    (by decide) rfl

/-- C10 (counterexample): with an empty cached PK and a scalar search
argument, the `cannotDerivePK` throw of `derivePK` happens before the
presorted branch of `find` deletes `this.PX`, so a presorted call leaves
the cached Ordered Index in place; a subsequent non-presorted call then
reuses the stale (unsorted) cache instead of rebuilding, and misses a row
that is present. -/
theorem C10_stale_cache_survives_presorted :
    (find ⟨[[("a", Val.int 2)], [("a", Val.int 1)]], true, some [], some [0, 1]⟩
      (.scalar (Val.int 1)) ⟨true, false⟩).1 = .error .cannotDerivePK ∧
    (find ⟨[[("a", Val.int 2)], [("a", Val.int 1)]], true, some [], some [0, 1]⟩
      (.scalar (Val.int 1)) ⟨true, false⟩).2.PX = some [0, 1] ∧
    (findRow ⟨[[("a", Val.int 2)], [("a", Val.int 1)]], true, some [], some [0, 1]⟩
      (.obj [("a", Val.int 1)]) ⟨false, false⟩).1 = .ok none :=
  ⟨rfl, rfl, rfl⟩

/-! Claim C7: no partial mutation on decline or error. -/

/-- C7 (amended): with default options and a resolved non-empty cached
index, a declined (`handled = false`) `insertRow` or `deleteRow` leaves the
state — rows and Ordered Index — exactly as it was, and so does any call
that raises an error, whatever the delegate would have answered. The
original claim fails under `options.presorted`, which destroys the cached
index even when the delegate declines (see the counterexample). -/
theorem C7_no_partial_mutation (rows : List Row) (ld : Bool)
    (pk : List String) (px : List Nat) (r : Row) (sarg : Sarg) (o : Options)
    (handled : Bool)
    (hne : pk ≠ []) (hpxne : px ≠ [])
    (ho1 : o.presorted = false) (ho2 : o.reindex = false) :
    (insertRow ⟨rows, ld, some pk, some px⟩ r o false).state =
      ⟨rows, ld, some pk, some px⟩ ∧
    (deleteRow ⟨rows, ld, some pk, some px⟩ sarg o false).state =
      ⟨rows, ld, some pk, some px⟩ ∧
    (∀ e, (insertRow ⟨rows, ld, some pk, some px⟩ r o handled).result = .error e →
      (insertRow ⟨rows, ld, some pk, some px⟩ r o handled).state =
        ⟨rows, ld, some pk, some px⟩) ∧
    (∀ e, (deleteRow ⟨rows, ld, some pk, some px⟩ sarg o handled).result = .error e →
      (deleteRow ⟨rows, ld, some pk, some px⟩ sarg o handled).state =
        ⟨rows, ld, some pk, some px⟩) := by
  have hrei := find_resolved_cached rows ld pk px (.obj r) o hne hpxne ho1 ho2
  have hred := find_resolved_cached rows ld pk px sarg o hne hpxne ho1 ho2
  refine ⟨?_, ?_, ?_, ?_⟩
  · rw [insertRow, hrei]
    cases hns : normalizeSarg pk (.obj r) with
    | error e => rfl
    | ok vals =>
      dsimp only
      by_cases hl : vals.length ≠ pk.length
      · rw [if_pos hl]
      · rw [if_neg hl]
        dsimp only
        cases hdr : (searchPhase
            (DS.getIndexedRow ⟨rows, ld, some pk, some px⟩ px) pk vals 0
            ((rows.length : Int) - 1)).dataRow <;> rfl
  · rw [deleteRow, hred]
    cases hns : normalizeSarg pk sarg with
    | error e => rfl
    | ok vals =>
      dsimp only
      by_cases hl : vals.length ≠ pk.length
      · rw [if_pos hl]
      · rw [if_neg hl]
        dsimp only
        cases hdr : (searchPhase
            (DS.getIndexedRow ⟨rows, ld, some pk, some px⟩ px) pk vals 0
            ((rows.length : Int) - 1)).dataRow <;> rfl
  · intro e
    rw [insertRow, hrei]
    cases hns : normalizeSarg pk (.obj r) with
    | error e2 => intro _; rfl
    | ok vals =>
      dsimp only
      by_cases hl : vals.length ≠ pk.length
      · rw [if_pos hl]
        intro _
        rfl
      · rw [if_neg hl]
        dsimp only
        cases hdr : (searchPhase
            (DS.getIndexedRow ⟨rows, ld, some pk, some px⟩ px) pk vals 0
            ((rows.length : Int) - 1)).dataRow with
        | some row =>
          intro _
          rfl
        | none =>
          cases handled <;>
            exact fun h => absurd h (by simp)
  · intro e
    rw [deleteRow, hred]
    cases hns : normalizeSarg pk sarg with
    | error e2 => intro _; rfl
    | ok vals =>
      dsimp only
      by_cases hl : vals.length ≠ pk.length
      · rw [if_pos hl]
        intro _
        rfl
      · rw [if_neg hl]
        dsimp only
        cases hdr : (searchPhase
            (DS.getIndexedRow ⟨rows, ld, some pk, some px⟩ px) pk vals 0
            ((rows.length : Int) - 1)).dataRow with
        | none =>
          exact fun h => absurd h (by simp)
        | some row =>
          dsimp only
          cases handled <;>
            exact fun h => absurd h (by simp)

/-- C7 (witness). -/
theorem C7_no_partial_mutation_witness :
    (insertRow ⟨[[("id", Val.int 1)]], true, some ["id"], some [0]⟩
      [("id", Val.int 2)] ⟨false, false⟩ false).state =
      ⟨[[("id", Val.int 1)]], true, some ["id"], some [0]⟩ ∧
    (deleteRow ⟨[[("id", Val.int 1)]], true, some ["id"], some [0]⟩
      (.scalar (Val.int 1)) ⟨false, false⟩ false).state =
      ⟨[[("id", Val.int 1)]], true, some ["id"], some [0]⟩ ∧
    (∀ e, (insertRow ⟨[[("id", Val.int 1)]], true, some ["id"], some [0]⟩
        [("id", Val.int 2)] ⟨false, false⟩ true).result = .error e →
      (insertRow ⟨[[("id", Val.int 1)]], true, some ["id"], some [0]⟩
        [("id", Val.int 2)] ⟨false, false⟩ true).state =
        ⟨[[("id", Val.int 1)]], true, some ["id"], some [0]⟩) ∧
    (∀ e, (deleteRow ⟨[[("id", Val.int 1)]], true, some ["id"], some [0]⟩
        (.scalar (Val.int 1)) ⟨false, false⟩ true).result = .error e →
      (deleteRow ⟨[[("id", Val.int 1)]], true, some ["id"], some [0]⟩
        (.scalar (Val.int 1)) ⟨false, false⟩ true).state =
        ⟨[[("id", Val.int 1)]], true, some ["id"], some [0]⟩) :=
  C7_no_partial_mutation [[("id", Val.int 1)]] true ["id"] [0]
    [("id", Val.int 2)] (.scalar (Val.int 1)) ⟨false, false⟩ true
    (by decide) (by decide) rfl rfl

/-- C7 (counterexample): an `insertRow` under `options.presorted` whose
delegate declines still reports `false` — yet the cached Ordered Index has
been destroyed by the call, so the index entries are not what they were
before: a partial mutation on decline. -/
theorem C7_presorted_decline_mutates :
    (insertRow ⟨[[("id", Val.int 1)]], true, some ["id"], some [0]⟩
      [("id", Val.int 2)] ⟨true, false⟩ false).result = .ok false ∧
    (insertRow ⟨[[("id", Val.int 1)]], true, some ["id"], some [0]⟩
      [("id", Val.int 2)] ⟨true, false⟩ false).state.PX = none :=
  ⟨rfl, rfl⟩

/-! Claims C4 and C3: duplicate insert, and the insert/findRow round trip. -/

/-- C4: inserting a row whose PK tuple already occurs in the store (with a
resolved non-empty sorted index and kind-uniform columns) raises the
duplicate-row error, returns the state exactly as it was — same rows, same
Ordered Index — and issues no mutation request to the delegate. -/
theorem C4_duplicate_insert_unchanged (rows : List Row) (ld : Bool)
    (pk : List String) (px : List Nat) (r : Row) (κ : String → Kind)
    (o : Options) (handled : Bool)
    (hne : pk ≠ []) (hpxne : px ≠ [])
    (ho1 : o.presorted = false) (ho2 : o.reindex = false)
    (hsx : SortedPX ⟨rows, ld, some pk, some px⟩ pk px)
    (hks : KindsOK rows pk κ)
    (hkt : ∀ k ∈ pk, (rowGet r k).kind = κ k)
    (hkeys : ∀ k ∈ pk, rowHas r k = true)
    (hdup : ∃ row ∈ rows, ∀ k ∈ pk, rowGet row k = rowGet r k) :
    insertRow ⟨rows, ld, some pk, some px⟩ r o handled =
      ⟨.error .rowExists, ⟨rows, ld, some pk, some px⟩, false⟩ := by
  have hre := find_resolved_cached rows ld pk px (.obj r) o hne hpxne ho1 ho2
  have hnorm : normalizeSarg pk (.obj r) = .ok (pk.map (rowGet r)) := by
    rw [normalizeSarg]
    exact mapSargVals_ok hkeys
  rw [hnorm] at hre
  dsimp only at hre
  have hlen : ¬ (pk.map (rowGet r)).length ≠ pk.length := by simp
  rw [if_neg hlen] at hre
  have FS := find_search_spec ⟨rows, ld, some pk, some px⟩ pk px r κ hne hsx
    hks hkt
  dsimp only at FS
  cases hdr : (searchPhase
      (DS.getIndexedRow ⟨rows, ld, some pk, some px⟩ px) pk
      (pk.map (rowGet r)) 0 ((rows.length : Int) - 1)).dataRow with
  | none =>
    exfalso
    obtain ⟨row, hrow, hagree⟩ := hdup
    exact (FS.2 hdr).2.2.2.2 row hrow hagree
  | some row =>
    rw [insertRow, hre]
    dsimp only
    rw [hdr]
    rfl

/-- C4 (witness). -/
theorem C4_duplicate_insert_unchanged_witness :
    insertRow ⟨[[("id", Val.int 1), ("name", Val.str "a")]], true,
        some ["id"], some [0]⟩
      [("id", Val.int 1), ("name", Val.str "b")] ⟨false, false⟩ true =
      ⟨.error .rowExists,
        ⟨[[("id", Val.int 1), ("name", Val.str "a")]], true,
          some ["id"], some [0]⟩, false⟩ :=
  C4_duplicate_insert_unchanged [[("id", Val.int 1), ("name", Val.str "a")]]
    true ["id"] [0] [("id", Val.int 1), ("name", Val.str "b")]
    (fun _ => Kind.int) ⟨false, false⟩ true
    (by decide) (by decide) rfl rfl
    (by unfold SortedPX; decide) (by unfold KindsOK; decide)
    (by decide) (by decide) (by decide)

/-- C3: inserting a row `r` whose PK tuple is new (resolved non-empty
sorted index, kind-uniform columns) is handled with result `true`, and an
immediately following `findRow` on the updated state with `r`'s key values
returns `r` itself. -/
theorem C3_insert_findRow_roundtrip (rows : List Row) (ld : Bool)
    (pk : List String) (px : List Nat) (r : Row) (κ : String → Kind)
    (o : Options)
    (hne : pk ≠ []) (hpxne : px ≠ [])
    (ho1 : o.presorted = false) (ho2 : o.reindex = false)
    (hsx : SortedPX ⟨rows, ld, some pk, some px⟩ pk px)
    (hks : KindsOK (rows ++ [r]) pk κ)
    (hkeys : ∀ k ∈ pk, rowHas r k = true)
    (hnodup : ∀ row ∈ rows, ¬ ∀ k ∈ pk, rowGet row k = rowGet r k) :
    (insertRow ⟨rows, ld, some pk, some px⟩ r o true).result = .ok true ∧
    (findRow (insertRow ⟨rows, ld, some pk, some px⟩ r o true).state
      (.obj r) o).1 = .ok (some r) := by
  obtain ⟨hres, p, hp0, hpn, hst, hsx2⟩ := insertRow_sorted_cached rows ld pk
    px r κ o hne hpxne ho1 ho2 hsx hks hkeys hnodup
  refine ⟨hres, ?_⟩
  rw [hst]
  have hkt : ∀ k ∈ pk, (rowGet r k).kind = κ k :=
    hks.2 r (List.mem_append.mpr (Or.inr (by simp)))
  have hpx2ne : spliceIn px p.toNat rows.length ≠ [] := by
    intro hcon
    have hlen2 := congrArg List.length hcon
    rw [spliceIn_length] at hlen2
    simp at hlen2
  have huniq : ∀ row ∈ rows ++ [r],
      (∀ k ∈ pk, rowGet row k = rowGet r k) → row = r := by
    intro row hrow hagree
    rcases List.mem_append.mp hrow with hrow | hrow
    · exact absurd hagree (hnodup row hrow)
    · exact List.mem_singleton.mp hrow
  rw [findRow_found_cached (rows ++ [r]) ld pk
    (spliceIn px p.toNat rows.length) r κ o hne hpx2ne ho1 ho2 hsx2 hks hkt
    hkeys (List.mem_append.mpr (Or.inr (by simp))) huniq]

/-- C3 (witness). -/
theorem C3_insert_findRow_roundtrip_witness :
    (insertRow ⟨[[("id", Val.int 1)]], true, some ["id"], some [0]⟩
      [("id", Val.int 2)] ⟨false, false⟩ true).result = .ok true ∧
    (findRow (insertRow ⟨[[("id", Val.int 1)]], true, some ["id"], some [0]⟩
        [("id", Val.int 2)] ⟨false, false⟩ true).state
      (.obj [("id", Val.int 2)]) ⟨false, false⟩).1 = .ok (some [("id", Val.int 2)]) :=
  C3_insert_findRow_roundtrip [[("id", Val.int 1)]] true ["id"] [0]
    [("id", Val.int 2)] (fun _ => Kind.int) ⟨false, false⟩
    (by decide) (by decide) rfl rfl
    (by unfold SortedPX; decide) (by unfold KindsOK; decide)
    (by decide) (by decide)

/-! Claim C1: the Ordered Index invariant. -/

/-- C1 (amended): the Ordered Index built by the `derivePX` rebuild is a
permutation of the store positions with PK tuples ascending across every
(adjacent) pair, under kind-uniform PK columns; and a delegate-handled
`insertRow` splice preserves that invariant over the extended store. The
original claim's `deleteRow` part fails: its splice removes an index entry
without renumbering the survivors, which breaks the permutation property
(see the counterexample). -/
theorem C1_ordered_index_invariant (rows : List Row) (ld : Bool)
    (pk : List String) (px : List Nat) (r : Row) (κ : String → Kind)
    (o : Options)
    (hne : pk ≠ []) (hpxne : px ≠ [])
    (ho1 : o.presorted = false) (ho2 : o.reindex = false)
    (hsx : SortedPX ⟨rows, ld, some pk, some px⟩ pk px)
    (hks : KindsOK (rows ++ [r]) pk κ)
    (hkeys : ∀ k ∈ pk, rowHas r k = true)
    (hnodup : ∀ row ∈ rows, ¬ ∀ k ∈ pk, rowGet row k = rowGet r k) :
    SortedPX ⟨rows, ld, some pk, none⟩ pk
      (rebuildPX ⟨rows, ld, some pk, none⟩ pk) ∧
    ∃ px2 : List Nat,
      (insertRow ⟨rows, ld, some pk, some px⟩ r o true).state =
        ⟨rows ++ [r], ld, some pk, some px2⟩ ∧
      SortedPX ⟨rows ++ [r], ld, some pk, some px2⟩ pk px2 := by
  constructor
  · exact rebuildPX_sorted ⟨rows, ld, some pk, none⟩ pk κ
      ⟨hks.1, fun row hrow => hks.2 row (List.mem_append.mpr (Or.inl hrow))⟩
  · obtain ⟨hres, p, hp0, hpn, hst, hsx2⟩ := insertRow_sorted_cached rows ld
      pk px r κ o hne hpxne ho1 ho2 hsx hks hkeys hnodup
    exact ⟨spliceIn px p.toNat rows.length, hst, hsx2⟩

/-- C1 (witness). -/
theorem C1_ordered_index_invariant_witness :
    SortedPX ⟨[[("id", Val.int 3)], [("id", Val.int 1)]], true,
        some ["id"], none⟩ ["id"]
      (rebuildPX ⟨[[("id", Val.int 3)], [("id", Val.int 1)]], true,
        some ["id"], none⟩ ["id"]) ∧
    ∃ px2 : List Nat,
      (insertRow ⟨[[("id", Val.int 3)], [("id", Val.int 1)]], true,
          some ["id"], some [1, 0]⟩
        [("id", Val.int 2)] ⟨false, false⟩ true).state =
        ⟨[[("id", Val.int 3)], [("id", Val.int 1)], [("id", Val.int 2)]],
          true, some ["id"], some px2⟩ ∧
      SortedPX ⟨[[("id", Val.int 3)], [("id", Val.int 1)],
          [("id", Val.int 2)]], true, some ["id"], some px2⟩ ["id"] px2 :=
  C1_ordered_index_invariant [[("id", Val.int 3)], [("id", Val.int 1)]] true
    ["id"] [1, 0] [("id", Val.int 2)] (fun _ => Kind.int) ⟨false, false⟩
    (by decide) (by decide) rfl rfl
    (by unfold SortedPX; decide) (by unfold KindsOK; decide)
    (by decide) (by decide)

/-- C1 (counterexample): a delegate-handled `deleteRow` splices the found
entry out of the Ordered Index without renumbering the remaining entries:
deleting the row at store position 0 leaves the index `[1]` over a 1-row
store, which is not a permutation of the store positions — the invariant
does not survive the `deleteRow` splice. -/
theorem C1_delete_breaks_index :
    (deleteRow ⟨[[("id", Val.int 2)], [("id", Val.int 1)]], true,
        some ["id"], none⟩ (.scalar (Val.int 2)) ⟨false, false⟩ true).state =
      ⟨[[("id", Val.int 1)]], true, some ["id"], some [1]⟩ ∧
    ¬ SortedPX ⟨[[("id", Val.int 1)]], true, some ["id"], some [1]⟩
      ["id"] [1] := by
  refine ⟨rfl, fun h => absurd h.1 (by decide)⟩

/-! Claim C8: the derived primary key's column order. -/

/-- C8 (amended): with no PK configured, an object search argument derives
a primary key that is a permutation of the argument's own keys, sorted
descending by the source's selectivity score — the count of distinct JS
string images the column's values take across locally materialized rows
(0 for every column without a local row collection) — and, for every score
class, the keys of that score keep their original encounter order. The
original claim scores by count of distinct values; the source counts
distinct stringified values, which merges values with equal string images
(see the counterexample). -/
theorem C8_derived_pk_ordering (rows : List Row) (ld : Bool)
    (px : Option (List Nat)) (r : Row) :
    ∃ l : List String,
      derivePK ⟨rows, ld, none, px⟩ (.obj r) = .ok l ∧
      l.Perm (rowKeys r) ∧
      l.Pairwise (fun a b =>
        scoreOf ⟨rows, ld, none, px⟩ b ≤ scoreOf ⟨rows, ld, none, px⟩ a) ∧
      ∀ sc : Int,
        l.filter (fun k => decide (scoreOf ⟨rows, ld, none, px⟩ k = sc)) =
          (rowKeys r).filter
            (fun k => decide (scoreOf ⟨rows, ld, none, px⟩ k = sc)) := by
  have hle : (fun (a b : String × Int) => decide (b.2 - a.2 ≤ 0)) =
      (fun (a b : String × Int) => decide (b.2 ≤ a.2)) := by
    funext a b
    exact decide_eq_decide.mpr (by omega)
  have hfst : ((rowKeys r).map
      (fun k => (k, scoreOf ⟨rows, ld, none, px⟩ k))).map Prod.fst =
      rowKeys r := by
    rw [List.map_map]
    simp only [Function.comp_def]
    simp
  have hmem : ∀ p ∈ jsSort (fun (a b : String × Int) => decide (b.2 ≤ a.2))
      ((rowKeys r).map (fun k => (k, scoreOf ⟨rows, ld, none, px⟩ k))),
      p.2 = scoreOf ⟨rows, ld, none, px⟩ p.1 := by
    intro p hp
    have hp2 : p ∈ (rowKeys r).map
        (fun k => (k, scoreOf ⟨rows, ld, none, px⟩ k)) :=
      (jsSort_perm _ _).mem_iff.mp hp
    obtain ⟨k, hk, rfl⟩ := List.mem_map.mp hp2
    rfl
  have hmap : ∀ (l : List (String × Int)) (sc : Int),
      (∀ p ∈ l, p.2 = scoreOf ⟨rows, ld, none, px⟩ p.1) →
      (l.map Prod.fst).filter
        (fun k => decide (scoreOf ⟨rows, ld, none, px⟩ k = sc)) =
        (l.filter (fun a => decide (a.2 = sc))).map Prod.fst := by
    intro l sc hl
    rw [List.filter_map]
    congr 1
    apply List.filter_congr
    intro p hp
    simp only [Function.comp]
    rw [hl p hp]
  refine ⟨(jsSort (fun (a b : String × Int) => decide (b.2 ≤ a.2))
    ((rowKeys r).map
      (fun k => (k, scoreOf ⟨rows, ld, none, px⟩ k)))).map Prod.fst,
    ?_, ?_, ?_, ?_⟩
  · rw [derivePK]
    dsimp only
    rw [derivePKFrom, hle]
  · have hperm := List.Perm.map Prod.fst
      (jsSort_perm (fun (a b : String × Int) => decide (b.2 ≤ a.2))
        ((rowKeys r).map (fun k => (k, scoreOf ⟨rows, ld, none, px⟩ k))))
    rw [hfst] at hperm
    exact hperm
  · have hpw := @jsSort_pairwise (String × Int)
      (fun (a b : String × Int) => decide (b.2 ≤ a.2))
      (fun a b => by
        rcases le_total b.2 a.2 with h | h
        · exact Or.inl (decide_eq_true h)
        · exact Or.inr (decide_eq_true h))
      (fun a b c h1 h2 => by
        simp only [decide_eq_true_eq] at h1 h2 ⊢
        omega)
      ((rowKeys r).map (fun k => (k, scoreOf ⟨rows, ld, none, px⟩ k)))
    refine List.pairwise_map.mpr (List.Pairwise.imp_of_mem ?_ hpw)
    intro a b ha hb hab
    rw [← hmem a ha, ← hmem b hb]
    exact of_decide_eq_true hab
  · intro sc
    have hfs := jsSort_filter_score (fun p : String × Int => p.2)
      ((rowKeys r).map (fun k => (k, scoreOf ⟨rows, ld, none, px⟩ k))) sc
    have hm1 := hmap (jsSort (fun (a b : String × Int) => decide (b.2 ≤ a.2))
      ((rowKeys r).map (fun k => (k, scoreOf ⟨rows, ld, none, px⟩ k)))) sc hmem
    have hm2 := hmap ((rowKeys r).map
      (fun k => (k, scoreOf ⟨rows, ld, none, px⟩ k))) sc
      (by
        intro p hp
        obtain ⟨k, hk, rfl⟩ := List.mem_map.mp hp
        rfl)
    rw [hm1, hfs, ← hm2, hfst]

/-- C8 (counterexample): a column holding the number `1` and the string
`"1"` takes two distinct values but only one distinct string image, because
the histogram of `derivePK` buckets values by their JS object-key string.
On such data the source's order (`["b", "a"]`) differs from the order the
claim's distinct-value score prescribes (a tie, kept in encounter order:
`["a", "b"]`). -/
theorem C8_stringified_score_diverges :
    derivePK ⟨[[("a", Val.int 1), ("b", Val.int 7)],
        [("a", Val.str "1"), ("b", Val.int 8)]], true, none, none⟩
      (.obj [("a", Val.int 1), ("b", Val.int 7)]) = .ok ["b", "a"] ∧
    specSelectivityScore ⟨[[("a", Val.int 1), ("b", Val.int 7)],
        [("a", Val.str "1"), ("b", Val.int 8)]], true, none, none⟩ "a" = 2 ∧
    scoreOf ⟨[[("a", Val.int 1), ("b", Val.int 7)],
        [("a", Val.str "1"), ("b", Val.int 8)]], true, none, none⟩ "a" = 1 ∧
    specDerivePKOrder ⟨[[("a", Val.int 1), ("b", Val.int 7)],
        [("a", Val.str "1"), ("b", Val.int 8)]], true, none, none⟩
      [("a", Val.int 1), ("b", Val.int 7)] = ["a", "b"] := by
  exact ⟨rfl, rfl, rfl, rfl⟩

/-! Claim C5: the narrowing phase brackets exactly the non-final-column
run. -/

/-- C5: over an accessor whose rows are sorted by the multi-column PK
`ks ++ [klast]` on positions `0 .. n-1`, with kind-uniform non-undefined
column values matching the target tuple, the narrowing folds of `find`
(lower-bound search, then upper-bound search minus one, per non-final
column) produce a subrange `[mn', mx']` of the initial range that contains
precisely those positions whose non-final column values all equal the
search values — duplicates included — and the final-column exact search of
`searchPhase` then runs on exactly that subrange. -/
theorem C5_narrowing_brackets (g : Int → Row) (t : Row) (n : Nat)
    (ks : List String) (klast : String) (vs : List Val) (vlast : Val)
    (hklen : ks.length = vs.length)
    (ht : ∀ p ∈ (ks ++ [klast]).zip (vs ++ [vlast]), rowGet t p.1 = p.2)
    (hkinds : ∀ p ∈ (ks ++ [klast]).zip (vs ++ [vlast]),
      p.2.kind ≠ Kind.undef ∧
      ∀ i : Nat, i < n → (rowGet (g (i : Int)) p.1).kind = p.2.kind)
    (hsorted : ∀ j : Nat, j < n → ∀ i : Nat, i ≤ j →
      cmpRows (ks ++ [klast]) (g (i : Int)) (g (j : Int)) ≤ 0) :
    0 ≤ ((ks.zip vs).foldl (narrowStep g) (0, (n : Int) - 1)).1 ∧
    ((ks.zip vs).foldl (narrowStep g) (0, (n : Int) - 1)).1 ≤
      ((ks.zip vs).foldl (narrowStep g) (0, (n : Int) - 1)).2 + 1 ∧
    ((ks.zip vs).foldl (narrowStep g) (0, (n : Int) - 1)).2 ≤ (n : Int) - 1 ∧
    (∀ i : Int, 0 ≤ i → i ≤ (n : Int) - 1 →
      ((((ks.zip vs).foldl (narrowStep g) (0, (n : Int) - 1)).1 ≤ i ∧
        i ≤ ((ks.zip vs).foldl (narrowStep g) (0, (n : Int) - 1)).2) ↔
       ∀ p ∈ ks.zip vs, rowGet (g i) p.1 = p.2)) ∧
    searchPhase g (ks ++ [klast]) (vs ++ [vlast]) 0 ((n : Int) - 1) =
      binSearch g klast vlast
        ((ks.zip vs).foldl (narrowStep g) (0, (n : Int) - 1)).1
        ((ks.zip vs).foldl (narrowStep g) (0, (n : Int) - 1)).2 := by
  have hsortI : ∀ i j : Int, 0 ≤ i → i ≤ j → j ≤ (n : Int) - 1 →
      cmpRows (ks ++ [klast]) (g i) (g j) ≤ 0 := by
    intro i j h0 hij h1
    have hi2 : i = ((i.toNat : Nat) : Int) := by omega
    have hj2 : j = ((j.toNat : Nat) : Int) := by omega
    rw [hi2, hj2]
    exact hsorted j.toNat (by omega) i.toNat (by omega)
  have hzip : (ks ++ [klast]).zip (vs ++ [vlast]) =
      ks.zip vs ++ [(klast, vlast)] := by
    rw [List.zip_append hklen]
    simp
  have hmapfst : (ks.zip vs).map Prod.fst = ks :=
    List.map_fst_zip ks vs (by omega)
  have hbase : NarrowInv g (ks ++ [klast]) t (n : Int) [] 0 ((n : Int) - 1) :=
    ⟨le_refl 0, le_refl _, by omega,
      fun i _ _ p hp => absurd hp (List.not_mem_nil p),
      fun i h1 h2 => absurd h1 (by omega),
      fun i h1 h2 => absurd h1 (by omega),
      fun i h1 h2 => absurd h2 (by omega),
      fun i h1 h2 => absurd h2 (by omega)⟩
  have hinv := narrowFold_inv g (ks ++ [klast]) t (n : Int) klast hsortI
    (ks.zip vs) [] 0 ((n : Int) - 1)
    (by rw [List.nil_append, hmapfst])
    (fun p hp => absurd hp (List.not_mem_nil p))
    (fun p hp => by
      have hpmem : p ∈ (ks ++ [klast]).zip (vs ++ [vlast]) := by
        rw [hzip]
        exact List.mem_append.mpr (Or.inl hp)
      refine ⟨(hkinds p hpmem).1, ht p hpmem, ?_⟩
      intro i h0 h1
      have hi2 : i = ((i.toNat : Nat) : Int) := by omega
      rw [hi2]
      exact (hkinds p hpmem).2 i.toNat (by omega))
    hbase
  rw [List.nil_append] at hinv
  refine ⟨hinv.lo, hinv.lohi, hinv.hi, ?_, ?_⟩
  · intro i h0 h1
    constructor
    · intro hband p hp
      exact hinv.band i hband.1 hband.2 p hp
    · intro hall
      constructor
      · by_contra hlt
        push_neg at hlt
        obtain ⟨p, hp, hnep⟩ := hinv.leftNe i h0 hlt
        exact hnep (hall p hp)
      · by_contra hgt
        push_neg at hgt
        obtain ⟨p, hp, hnep⟩ := hinv.rightNe i hgt h1
        exact hnep (hall p hp)
  · have hd1 : (ks ++ [klast]).dropLast = ks := List.dropLast_concat
    have hd2 : (vs ++ [vlast]).dropLast = vs := List.dropLast_concat
    have hl1 : (ks ++ [klast]).getLastD "undefined" = klast :=
      List.getLastD_concat _ _ _
    have hl2 : (vs ++ [vlast]).getLastD Val.undef = vlast :=
      List.getLastD_concat _ _ _
    rw [searchPhase, hd1, hd2, hl1, hl2]

/-- C5 (witness): a 4-row store with PK `["dept", "id"]` and duplicate
`dept` values. -/
theorem C5_narrowing_brackets_witness :
    0 ≤ ((["dept"].zip [Val.int 20]).foldl
      (narrowStep (fun i => ([[("dept", Val.int 10), ("id", Val.int 1)],
        [("dept", Val.int 10), ("id", Val.int 3)],
        [("dept", Val.int 20), ("id", Val.int 2)],
        [("dept", Val.int 20), ("id", Val.int 5)]].getD i.toNat [])))
      (0, ((4 : Nat) : Int) - 1)).1 ∧
    ((["dept"].zip [Val.int 20]).foldl
      (narrowStep (fun i => ([[("dept", Val.int 10), ("id", Val.int 1)],
        [("dept", Val.int 10), ("id", Val.int 3)],
        [("dept", Val.int 20), ("id", Val.int 2)],
        [("dept", Val.int 20), ("id", Val.int 5)]].getD i.toNat [])))
      (0, ((4 : Nat) : Int) - 1)).1 ≤
      ((["dept"].zip [Val.int 20]).foldl
        (narrowStep (fun i => ([[("dept", Val.int 10), ("id", Val.int 1)],
          [("dept", Val.int 10), ("id", Val.int 3)],
          [("dept", Val.int 20), ("id", Val.int 2)],
          [("dept", Val.int 20), ("id", Val.int 5)]].getD i.toNat [])))
        (0, ((4 : Nat) : Int) - 1)).2 + 1 ∧
    ((["dept"].zip [Val.int 20]).foldl
      (narrowStep (fun i => ([[("dept", Val.int 10), ("id", Val.int 1)],
        [("dept", Val.int 10), ("id", Val.int 3)],
        [("dept", Val.int 20), ("id", Val.int 2)],
        [("dept", Val.int 20), ("id", Val.int 5)]].getD i.toNat [])))
      (0, ((4 : Nat) : Int) - 1)).2 ≤ ((4 : Nat) : Int) - 1 ∧
    (∀ i : Int, 0 ≤ i → i ≤ ((4 : Nat) : Int) - 1 →
      ((((["dept"].zip [Val.int 20]).foldl
        (narrowStep (fun i => ([[("dept", Val.int 10), ("id", Val.int 1)],
          [("dept", Val.int 10), ("id", Val.int 3)],
          [("dept", Val.int 20), ("id", Val.int 2)],
          [("dept", Val.int 20), ("id", Val.int 5)]].getD i.toNat [])))
        (0, ((4 : Nat) : Int) - 1)).1 ≤ i ∧
        i ≤ ((["dept"].zip [Val.int 20]).foldl
          (narrowStep (fun i => ([[("dept", Val.int 10), ("id", Val.int 1)],
            [("dept", Val.int 10), ("id", Val.int 3)],
            [("dept", Val.int 20), ("id", Val.int 2)],
            [("dept", Val.int 20), ("id", Val.int 5)]].getD i.toNat [])))
          (0, ((4 : Nat) : Int) - 1)).2) ↔
       ∀ p ∈ ["dept"].zip [Val.int 20],
         rowGet ((fun i => ([[("dept", Val.int 10), ("id", Val.int 1)],
           [("dept", Val.int 10), ("id", Val.int 3)],
           [("dept", Val.int 20), ("id", Val.int 2)],
           [("dept", Val.int 20), ("id", Val.int 5)]].getD i.toNat [])) i)
           p.1 = p.2)) ∧
    searchPhase (fun i => ([[("dept", Val.int 10), ("id", Val.int 1)],
        [("dept", Val.int 10), ("id", Val.int 3)],
        [("dept", Val.int 20), ("id", Val.int 2)],
        [("dept", Val.int 20), ("id", Val.int 5)]].getD i.toNat []))
      (["dept"] ++ ["id"]) ([Val.int 20] ++ [Val.int 2]) 0
      (((4 : Nat) : Int) - 1) =
      binSearch (fun i => ([[("dept", Val.int 10), ("id", Val.int 1)],
          [("dept", Val.int 10), ("id", Val.int 3)],
          [("dept", Val.int 20), ("id", Val.int 2)],
          [("dept", Val.int 20), ("id", Val.int 5)]].getD i.toNat []))
        "id" (Val.int 2)
        ((["dept"].zip [Val.int 20]).foldl
          (narrowStep (fun i => ([[("dept", Val.int 10), ("id", Val.int 1)],
            [("dept", Val.int 10), ("id", Val.int 3)],
            [("dept", Val.int 20), ("id", Val.int 2)],
            [("dept", Val.int 20), ("id", Val.int 5)]].getD i.toNat [])))
          (0, ((4 : Nat) : Int) - 1)).1
        ((["dept"].zip [Val.int 20]).foldl
          (narrowStep (fun i => ([[("dept", Val.int 10), ("id", Val.int 1)],
            [("dept", Val.int 10), ("id", Val.int 3)],
            [("dept", Val.int 20), ("id", Val.int 2)],
            [("dept", Val.int 20), ("id", Val.int 5)]].getD i.toNat [])))
          (0, ((4 : Nat) : Int) - 1)).2 :=
  C5_narrowing_brackets
    (fun i => ([[("dept", Val.int 10), ("id", Val.int 1)],
      [("dept", Val.int 10), ("id", Val.int 3)],
      [("dept", Val.int 20), ("id", Val.int 2)],
      [("dept", Val.int 20), ("id", Val.int 5)]].getD i.toNat []))
    [("dept", Val.int 20), ("id", Val.int 2)] 4 ["dept"] "id"
    [Val.int 20] (Val.int 2) rfl (by decide) (by decide) (by decide)

end Saur
